import Mathlib

/-!
Verification of the PEG combinator library's matching engine.

The development shallowly embeds the Go source: strings are byte lists
(`List Nat`), the mutable `context` structure becomes a `Context` record
with pure update functions, each pattern's `match` method becomes a case
of `matchBody` that ends in one of the four yields (call / execute /
return / error), and the trampoline loop becomes a fuel-indexed `run`.

Representation choices (value semantics for Go's mutable slices/maps):
  * `callstack` and `scopes` keep their top at the list head (the Go
    slices grow at the end and are read from the end).
  * `groups` and `capstack` keep the Go order (new entries appended at
    the end) because that order is observable in results.
  * `namedGroups` is an association list whose most recent binding is
    first; `map[k] = v` becomes consing `(k, v)` and map-merge with
    child entries overwriting becomes `child ++ parent`.
Case-insensitive pattern variants (TI/TSI/BackI) and the Unicode class
tables are outside the modelled fragment.
-/

namespace Peg

/-- Bytes of a Go string. -/
abbrev Byte := Nat

/-- UTF-8 decoding of the first rune, after Go's `utf8.DecodeRuneInString`:
empty input gives size 0, any invalid or truncated encoding gives the
replacement rune with size 1, and overlong forms and surrogates are
rejected by the same first-byte/second-byte accept ranges Go uses. -/
def decodeRune : List Byte → Nat × Nat
  | [] => (0xFFFD, 0)
  | b0 :: rest =>
    let b1 := rest.getD 0 0
    let b2 := rest.getD 1 0
    let b3 := rest.getD 2 0
    if b0 < 0x80 then (b0, 1)
    else if b0 < 0xC2 then (0xFFFD, 1)
    else if b0 < 0xE0 then
      if 1 ≤ rest.length ∧ 0x80 ≤ b1 ∧ b1 < 0xC0 then
        ((b0 - 0xC0) * 64 + (b1 - 0x80), 2)
      else (0xFFFD, 1)
    else if b0 < 0xF0 then
      let lo := if b0 = 0xE0 then 0xA0 else 0x80
      let hi := if b0 = 0xED then 0xA0 else 0xC0
      if 2 ≤ rest.length ∧ (lo ≤ b1 ∧ b1 < hi) ∧ (0x80 ≤ b2 ∧ b2 < 0xC0) then
        ((b0 - 0xE0) * 4096 + (b1 - 0x80) * 64 + (b2 - 0x80), 3)
      else (0xFFFD, 1)
    else if b0 < 0xF5 then
      let lo := if b0 = 0xF0 then 0x90 else 0x80
      let hi := if b0 = 0xF4 then 0x90 else 0xC0
      if 3 ≤ rest.length ∧ (lo ≤ b1 ∧ b1 < hi) ∧ (0x80 ≤ b2 ∧ b2 < 0xC0) ∧
          (0x80 ≤ b3 ∧ b3 < 0xC0) then
        ((b0 - 0xF0) * 262144 + (b1 - 0x80) * 4096 + (b2 - 0x80) * 64 +
          (b3 - 0x80), 4)
      else (0xFFFD, 1)
    else (0xFFFD, 1)

theorem decodeRune_size_le (l : List Byte) : (decodeRune l).2 ≤ l.length := by
  match l with
  | [] => simp [decodeRune]
  | b0 :: rest =>
    simp only [decodeRune, List.length_cons]
    split_ifs <;> simp_all

theorem decodeRune_size_pos (b : Byte) (l : List Byte) :
    1 ≤ (decodeRune (b :: l)).2 := by
  simp only [decodeRune]
  split_ifs <;> simp

/-- Rune count of a byte string, after Go's `utf8.RuneCountInString`:
one count per `decodeRune` step. -/
def runeCount (l : List Byte) : Nat :=
  match h : l with
  | [] => 0
  | b :: rest => 1 + runeCount (l.drop (decodeRune l).2)
termination_by l.length
decreasing_by
  subst h
  have h1 := decodeRune_size_pos b rest
  simp only [List.length_drop, List.length_cons]
  omega

/-- Byte offsets immediately after each line break before `bound`, after
`positionCalculator.caching`: a break is a line feed, or a carriage
return not followed by a line feed. -/
def lineEnds (text : List Byte) (bound : Nat) : List Nat :=
  (List.range bound).filterMap fun c =>
    match text.get? c with
    | some 10 => some (c + 1)
    | some 13 => if text.get? (c + 1) = some 10 then none else some (c + 1)
    | _ => none

/-- Position record; the `offest` spelling follows the source. -/
structure Position where
  offest : Nat
  line : Nat
  column : Nat
deriving DecidableEq, Repr

/-- Pure rendering of `positionCalculator.calculate`: the line number is
the number of line endings at or before `offset`, the column counts the
runes from the last such ending (or 0) to `offset`. -/
def calculate (text : List Byte) (offset : Nat) : Position :=
  let ends := lineEnds text offset
  { offest := offset
    line := ends.length
    column := runeCount ((text.take offset).drop (ends.getLastD 0)) }

/-- Run-aborting errors of the engine (`errors.go`), plus a `user`
variant standing for arbitrary error values returned by hooks and
capture constructors. -/
inductive PegError where
  | dismatch
  | notFullMatched
  | cornerCase
  | callstackOverflow
  | reachedRepeatLimit
  | executeWhenConsumed
  | nilConstructor
  | nilMainPattern
  | undefinedVar (name : String)
  | abortErr (pos : Position) (msg : String)
  | user (msg : String)
deriving DecidableEq, Repr

/-- Parse capture values: the predefined `Token` terminal and `Variable`
non-terminal of `peg.go`. -/
inductive Capture where
  | token (ty : Int) (value : List Byte) (pos : Position)
  | variable (name : String) (subs : List Capture)

/-- Non-terminal capture constructor (`NonTerminalConstructor`). -/
abbrev NonTermCons := List Capture → Except PegError Capture

/-- Terminal capture constructor (`TerminalConstructor`). -/
abbrev TermCons := List Byte → Position → Except PegError Capture

/-- Lexicographic byte-string comparison, the order used by Go's
`sort.Strings`: `lexble a b` holds when `a ≤ b`. -/
def lexble : List Byte → List Byte → Bool
  | [], _ => true
  | _ :: _, [] => false
  | a :: as, b :: bs => if a < b then true else if b < a then false else lexble as bs

/-- Propositional form of `lexble`, for use with `List.insertionSort`. -/
def lexR (a b : List Byte) : Prop := lexble a b = true

instance : DecidableRel lexR := fun a b => by unfold lexR; infer_instance

theorem lexble_total (a b : List Byte) : lexble a b = true ∨ lexble b a = true := by
  induction a generalizing b with
  | nil => left; rfl
  | cons x xs ih =>
    cases b with
    | nil => right; rfl
    | cons y ys =>
      simp only [lexble]
      rcases Nat.lt_trichotomy x y with h | h | h
      · left; simp [h]
      · subst h
        simp only [lt_irrefl, if_false]
        exact ih ys
      · right; simp [h, Nat.not_lt.mpr (Nat.le_of_lt h)]

theorem lexble_cons_iff {x y : Byte} {xs ys : List Byte} :
    lexble (x :: xs) (y :: ys) = true ↔ x < y ∨ (x = y ∧ lexble xs ys = true) := by
  simp only [lexble]
  split_ifs with h1 h2
  · simp [h1]
  · simp only [Bool.false_eq_true, false_iff]
    rintro (h | ⟨h, h'⟩)
    · exact h1 h
    · subst h; exact absurd h2 (lt_irrefl x)
  · have hxy : x = y := Nat.le_antisymm (Nat.not_lt.mp h2) (Nat.not_lt.mp h1)
    simp [hxy]

theorem lexble_trans {a b c : List Byte} (h1 : lexble a b = true)
    (h2 : lexble b c = true) : lexble a c = true := by
  induction a generalizing b c with
  | nil => rfl
  | cons x xs ih =>
    cases b with
    | nil => simp [lexble] at h1
    | cons y ys =>
      cases c with
      | nil => simp [lexble] at h2
      | cons z zs =>
        rw [lexble_cons_iff] at h1 h2 ⊢
        rcases h1 with h1 | ⟨hxy, h1'⟩
        · rcases h2 with h2 | ⟨hyz, _⟩
          · exact Or.inl (Nat.lt_trans h1 h2)
          · exact Or.inl (hyz ▸ h1)
        · rcases h2 with h2 | ⟨hyz, h2'⟩
          · exact Or.inl (hxy ▸ h2)
          · exact Or.inr ⟨hxy.trans hyz, ih h1' h2'⟩

instance : IsTotal (List Byte) lexR := ⟨lexble_total⟩

instance : IsTrans (List Byte) lexR := ⟨fun _ _ _ => lexble_trans⟩

/-- Sorting used by `patternTextSet.set` (`sort.Strings`). -/
def sortLex (l : List (List Byte)) : List (List Byte) := List.insertionSort lexR l

/-- Prefix tree of `text.go`: a `term` flag, the common key width, the
sorted keys and one subtree per key. -/
inductive PrefixTree where
  | node (term : Bool) (width : Nat) (keys : List (List Byte))
      (subs : List PrefixTree)

def PrefixTree.term : PrefixTree → Bool
  | .node t _ _ _ => t

def PrefixTree.width : PrefixTree → Nat
  | .node _ w _ _ => w

def PrefixTree.keys : PrefixTree → List (List Byte)
  | .node _ _ k _ => k

def PrefixTree.subs : PrefixTree → List PrefixTree
  | .node _ _ _ s => s

/-- Width of a prefix-tree level: the minimum length of the (non-empty)
entries, as computed by the `buildPrefixTree` loop. -/
def minWidth : List (List Byte) → Nat
  | [] => 0
  | x :: xs => xs.foldl (fun acc s => min acc s.length) x.length

/-- Grouping loop of `buildPrefixTree`: split a list into runs of equal
`width`-byte prefixes, collecting each run's tails with consecutive
duplicates removed (the `tail != lasttail` check). -/
def groupByPref (w : Nat) : List (List Byte) → List (List Byte × List (List Byte))
  | [] => []
  | s :: rest =>
    match groupByPref w rest with
    | [] => [(s.take w, [s.drop w])]
    | (k, tls) :: gs =>
      if s.take w = k then
        (k, match tls with
            | [] => [s.drop w]
            | t :: _ => if s.drop w = t then tls else s.drop w :: tls) :: gs
      else (s.take w, [s.drop w]) :: (k, tls) :: gs

/-- Termination measure for the prefix-tree builder. -/
def weight (l : List (List Byte)) : Nat := (l.map List.length).sum + l.length

theorem groupByPref_bound {w : Nat} {l : List (List Byte)} {k : List Byte}
    {tls : List (List Byte)} (hw : ∀ s ∈ l, w ≤ s.length)
    (hmem : (k, tls) ∈ groupByPref w l) :
    (tls.map List.length).sum + w * tls.length ≤ (l.map List.length).sum ∧
      tls.length ≤ l.length ∧ tls ≠ [] ∧
      ∀ t ∈ tls, ∃ s ∈ l, s.take w = k ∧ s.drop w = t := by
  induction l generalizing k tls with
  | nil => simp [groupByPref] at hmem
  | cons s rest ih =>
    have hws : w ≤ s.length := hw s (List.mem_cons_self _ _)
    have hwr : ∀ s' ∈ rest, w ≤ s'.length :=
      fun s' hs' => hw s' (List.mem_cons_of_mem _ hs')
    have hx : (s.drop w).length = s.length - w := List.length_drop w s
    simp only [groupByPref] at hmem
    match hg : groupByPref w rest with
    | [] =>
      rw [hg] at hmem
      simp only [List.mem_singleton, Prod.mk.injEq] at hmem
      obtain ⟨hk, htls⟩ := hmem
      subst hk; subst htls
      refine ⟨?_, by simp, by simp, ?_⟩
      · simp only [List.map_cons, List.map_nil, List.sum_cons, List.sum_nil,
          List.length_cons, List.length_nil]
        omega
      · intro t ht
        simp only [List.mem_singleton] at ht
        exact ⟨s, by simp, rfl, ht.symm⟩
    | (k', tls') :: gs =>
      rw [hg] at hmem
      dsimp only at hmem
      by_cases hpre : s.take w = k'
      · rw [if_pos hpre] at hmem
        rcases List.mem_cons.mp hmem with heq | hmem'
        · obtain ⟨hk, htls⟩ := Prod.mk.injEq .. ▸ heq
          have hold := ih hwr (hg ▸ List.mem_cons_self _ _)
          obtain ⟨hb1, hb2, hb3, hb4⟩ := hold
          subst hk
          have hcases : tls = tls' ∨ tls = s.drop w :: tls' := by
            rcases tls' with _ | ⟨t, ts⟩
            · right; exact htls
            · by_cases hdup : s.drop w = t
              · left; rw [htls]; simp [hdup]
              · right; rw [htls]; simp [hdup]
          rcases hcases with h | h
          · subst h
            refine ⟨by simp only [List.map_cons, List.sum_cons]; omega,
              by simp only [List.length_cons]; omega, hb3, ?_⟩
            intro t ht
            obtain ⟨s', hs', h1, h2⟩ := hb4 t ht
            exact ⟨s', List.mem_cons_of_mem _ hs', h1, h2⟩
          · subst h
            refine ⟨?_, by simp only [List.length_cons]; omega, by simp, ?_⟩
            · simp only [List.map_cons, List.sum_cons, List.length_cons,
                Nat.mul_add, Nat.mul_one]
              omega
            · intro t ht
              rcases List.mem_cons.mp ht with h | h
              · exact ⟨s, List.mem_cons_self _ _, hpre, h.symm⟩
              · obtain ⟨s', hs', h1, h2⟩ := hb4 t h
                exact ⟨s', List.mem_cons_of_mem _ hs', h1, h2⟩
        · have hold := ih hwr (hg ▸ List.mem_cons_of_mem _ hmem')
          obtain ⟨hb1, hb2, hb3, hb4⟩ := hold
          refine ⟨by simp only [List.map_cons, List.sum_cons]; omega,
            by simp only [List.length_cons]; omega, hb3, ?_⟩
          intro t ht
          obtain ⟨s', hs', h1, h2⟩ := hb4 t ht
          exact ⟨s', List.mem_cons_of_mem _ hs', h1, h2⟩
      · rw [if_neg hpre] at hmem
        rcases List.mem_cons.mp hmem with heq | hmem'
        · obtain ⟨hk, htls⟩ := Prod.mk.injEq .. ▸ heq
          subst hk; subst htls
          refine ⟨?_, by simp, by simp, ?_⟩
          · simp only [List.map_cons, List.sum_cons, List.length_cons,
              List.map_nil, List.sum_nil, List.length_nil]
            omega
          · intro t ht
            simp only [List.mem_singleton] at ht
            exact ⟨s, List.mem_cons_self _ _, rfl, ht.symm⟩
        · have hold := ih hwr (hg ▸ hmem')
          obtain ⟨hb1, hb2, hb3, hb4⟩ := hold
          refine ⟨by simp only [List.map_cons, List.sum_cons]; omega,
            by simp only [List.length_cons]; omega, hb3, ?_⟩
          intro t ht
          obtain ⟨s', hs', h1, h2⟩ := hb4 t ht
          exact ⟨s', List.mem_cons_of_mem _ hs', h1, h2⟩

theorem foldl_min_le_init (xs : List (List Byte)) (a : Nat) :
    xs.foldl (fun acc t => min acc t.length) a ≤ a := by
  induction xs generalizing a with
  | nil => exact le_refl _
  | cons y ys ih => exact le_trans (ih _) (min_le_left _ _)

theorem foldl_min_le_mem {xs : List (List Byte)} {s : List Byte} (a : Nat)
    (hs : s ∈ xs) : xs.foldl (fun acc t => min acc t.length) a ≤ s.length := by
  induction xs generalizing a with
  | nil => cases hs
  | cons y ys ih =>
    rcases List.mem_cons.mp hs with h | h
    · subst h
      simp only [List.foldl_cons]
      exact le_trans (foldl_min_le_init _ _) (min_le_right _ _)
    · simp only [List.foldl_cons]
      exact ih _ h

theorem minWidth_le {l : List (List Byte)} {s : List Byte} (hs : s ∈ l) :
    minWidth l ≤ s.length := by
  cases l with
  | nil => cases hs
  | cons x xs =>
    simp only [minWidth]
    rcases List.mem_cons.mp hs with h | h
    · subst h; exact foldl_min_le_init _ _
    · exact foldl_min_le_mem _ h

theorem lexble_nil_right {a : List Byte} (h : lexble a [] = true) : a = [] := by
  cases a with
  | nil => rfl
  | cons x xs => simp [lexble] at h

theorem lexble_antisymm {a b : List Byte} (h1 : lexble a b = true)
    (h2 : lexble b a = true) : a = b := by
  induction a generalizing b with
  | nil => exact (lexble_nil_right h2).symm
  | cons x xs ih =>
    cases b with
    | nil => simp [lexble] at h1
    | cons y ys =>
      rw [lexble_cons_iff] at h1 h2
      rcases h1 with h1 | ⟨hxy, h1'⟩
      · rcases h2 with h2 | ⟨hyx, _⟩
        · exact absurd (Nat.lt_trans h1 h2) (lt_irrefl x)
        · exact absurd (hyx ▸ h1) (lt_irrefl x)
      · rcases h2 with h2 | ⟨hyx, h2'⟩
        · exact absurd (hxy ▸ h2) (lt_irrefl y)
        · rw [hxy, ih h1' h2']

theorem lexble_take_mono {a b : List Byte} (w : Nat)
    (h : lexble a b = true) : lexble (a.take w) (b.take w) = true := by
  induction a generalizing b w with
  | nil => simp [List.take_nil, lexble]
  | cons x xs ih =>
    cases b with
    | nil => simp [lexble] at h
    | cons y ys =>
      cases w with
      | zero => rfl
      | succ w' =>
        rw [lexble_cons_iff] at h
        simp only [List.take_succ_cons]
        rw [lexble_cons_iff]
        rcases h with h | ⟨hxy, h'⟩
        · exact Or.inl h
        · exact Or.inr ⟨hxy, ih _ h'⟩

/-- Cancelling a common prefix preserves the lexicographic order. -/
theorem lexble_append_cancel (k a b : List Byte) :
    lexble (k ++ a) (k ++ b) = lexble a b := by
  induction k with
  | nil => rfl
  | cons x xs ih => simp [lexble, ih]

theorem groupByPref_complete {w : Nat} {l : List (List Byte)} {s : List Byte}
    (hs : s ∈ l) :
    ∃ p ∈ groupByPref w l, s.take w = p.1 ∧ s.drop w ∈ p.2 := by
  induction l with
  | nil => cases hs
  | cons a rest ih =>
    rcases List.mem_cons.mp hs with h | h
    · subst h
      simp only [groupByPref]
      match hg : groupByPref w rest with
      | [] =>
        exact ⟨_, List.mem_singleton.mpr rfl, rfl, List.mem_singleton.mpr rfl⟩
      | (k', tls') :: gs =>
        dsimp only
        by_cases hpre : s.take w = k'
        · rw [if_pos hpre]
          refine ⟨_, List.mem_cons_self _ _, hpre, ?_⟩
          rcases tls' with _ | ⟨t, ts⟩
          · simp
          · by_cases hdup : s.drop w = t
            · simp [hdup]
            · simp [hdup]
        · rw [if_neg hpre]
          exact ⟨_, List.mem_cons_self _ _, rfl, List.mem_singleton.mpr rfl⟩
    · obtain ⟨p, hp, h1, h2⟩ := ih h
      simp only [groupByPref]
      match hg : groupByPref w rest with
      | [] => rw [hg] at hp; cases hp
      | (k', tls') :: gs =>
        rw [hg] at hp
        dsimp only
        by_cases hpre : a.take w = k'
        · rw [if_pos hpre]
          rcases List.mem_cons.mp hp with heq | hmem
          · have hk : p.1 = k' := by rw [heq]
            have htls : p.2 = tls' := by rw [heq]
            refine ⟨_, List.mem_cons_self _ _, by rw [h1, hk], ?_⟩
            rw [htls] at h2
            rcases tls' with _ | ⟨t, ts⟩
            · cases h2
            · by_cases hdup : a.drop w = t
              · simpa [hdup] using h2
              · simp only [if_neg hdup]
                exact List.mem_cons_of_mem _ h2
          · exact ⟨p, List.mem_cons_of_mem _ hmem, h1, h2⟩
        · rw [if_neg hpre]
          exact ⟨p, List.mem_cons_of_mem _ hp, h1, h2⟩

theorem groupByPref_key_witness {w : Nat} {l : List (List Byte)}
    {p : List Byte × List (List Byte)} (hp : p ∈ groupByPref w l) :
    ∃ s ∈ l, s.take w = p.1 := by
  induction l generalizing p with
  | nil => cases hp
  | cons a rest ih =>
    simp only [groupByPref] at hp
    match hg : groupByPref w rest with
    | [] =>
      rw [hg] at hp
      dsimp only at hp
      rcases List.mem_singleton.mp hp with rfl
      exact ⟨a, List.mem_cons_self _ _, rfl⟩
    | (k', tls') :: gs =>
      rw [hg] at hp
      dsimp only at hp
      by_cases hpre : a.take w = k'
      · rw [if_pos hpre] at hp
        rcases List.mem_cons.mp hp with heq | hmem
        · have hk : p.1 = k' := by rw [heq]
          exact ⟨a, List.mem_cons_self _ _, by rw [hpre, hk]⟩
        · obtain ⟨s, hs, h1⟩ := ih (hg ▸ List.mem_cons_of_mem _ hmem)
          exact ⟨s, List.mem_cons_of_mem _ hs, h1⟩
      · rw [if_neg hpre] at hp
        rcases List.mem_cons.mp hp with heq | hmem
        · have hk : p.1 = a.take w := by rw [heq]
          exact ⟨a, List.mem_cons_self _ _, hk.symm⟩
        · obtain ⟨s, hs, h1⟩ := ih (hg ▸ hmem)
          exact ⟨s, List.mem_cons_of_mem _ hs, h1⟩

theorem groupByPref_head_key {w : Nat} {a : List Byte} {rest : List (List Byte)} :
    ∃ tls gs, groupByPref w (a :: rest) = (a.take w, tls) :: gs := by
  simp only [groupByPref]
  match hg : groupByPref w rest with
  | [] =>
    exact ⟨_, _, rfl⟩
  | (k', tls') :: gs =>
    dsimp only
    by_cases hpre : a.take w = k'
    · rw [if_pos hpre]
      exact ⟨_, _, by rw [hpre]⟩
    · rw [if_neg hpre]
      exact ⟨_, _, rfl⟩

theorem groupByPref_mem_tails {w : Nat} {l : List (List Byte)}
    {p : List Byte × List (List Byte)} (hp : p ∈ groupByPref w l) :
    ∀ t ∈ p.2, ∃ s ∈ l, s.take w = p.1 ∧ s.drop w = t := by
  induction l generalizing p with
  | nil => cases hp
  | cons a rest ih =>
    simp only [groupByPref] at hp
    match hg : groupByPref w rest with
    | [] =>
      rw [hg] at hp
      dsimp only at hp
      rcases List.mem_singleton.mp hp with rfl
      intro t ht
      rcases List.mem_singleton.mp ht with rfl
      exact ⟨a, List.mem_cons_self _ _, rfl, rfl⟩
    | (k', tls') :: gs =>
      rw [hg] at hp
      dsimp only at hp
      by_cases hpre : a.take w = k'
      · rw [if_pos hpre] at hp
        rcases List.mem_cons.mp hp with heq | hmem
        · have hk : p.1 = k' := by rw [heq]
          intro t ht
          have hold := @ih (k', tls') (hg ▸ List.mem_cons_self _ _)
          have htmem : t = a.drop w ∨ t ∈ tls' := by
            have h2 : t ∈ p.2 := ht
            rw [heq] at h2
            rcases tls' with _ | ⟨u, us⟩
            · simp at h2
              exact Or.inl h2
            · by_cases hdup : a.drop w = u
              · simp only [if_pos hdup] at h2
                exact Or.inr h2
              · simp only [if_neg hdup] at h2
                rcases List.mem_cons.mp h2 with h3 | h3
                · exact Or.inl h3
                · exact Or.inr h3
          rcases htmem with h3 | h3
          · exact ⟨a, List.mem_cons_self _ _, hk ▸ hpre, h3.symm⟩
          · obtain ⟨s, hs, h4, h5⟩ := hold t h3
            exact ⟨s, List.mem_cons_of_mem _ hs, hk ▸ h4, h5⟩
        · have hold := ih (hg ▸ List.mem_cons_of_mem _ hmem)
          intro t ht
          obtain ⟨s, hs, h4, h5⟩ := hold t ht
          exact ⟨s, List.mem_cons_of_mem _ hs, h4, h5⟩
      · rw [if_neg hpre] at hp
        rcases List.mem_cons.mp hp with heq | hmem
        · intro t ht
          have h2 : t ∈ p.2 := ht
          rw [heq] at h2
          rcases List.mem_singleton.mp h2 with rfl
          exact ⟨a, List.mem_cons_self _ _, by rw [heq], rfl⟩
        · have hold := ih (hg ▸ hmem)
          intro t ht
          obtain ⟨s, hs, h4, h5⟩ := hold t ht
          exact ⟨s, List.mem_cons_of_mem _ hs, h4, h5⟩

theorem lexR_ne_nil {a s : List Byte} (h : lexR a s) (ha : a ≠ []) : s ≠ [] := by
  intro hs
  subst hs
  exact ha (lexble_nil_right h)

theorem sorted_dropWhile_ne_nil {l : List (List Byte)}
    (hs : List.Sorted lexR l) :
    ∀ s ∈ l.dropWhile (fun t => t.isEmpty), s ≠ [] := by
  induction l with
  | nil => intro s h; cases h
  | cons a rest ih =>
    rcases List.sorted_cons.mp hs with ⟨ha, hrest⟩
    intro s hmem
    by_cases hae : a.isEmpty
    · rw [List.dropWhile_cons_of_pos hae] at hmem
      exact ih hrest s hmem
    · rw [List.dropWhile_cons_of_neg hae] at hmem
      have hane : a ≠ [] := by
        intro h; subst h; exact hae rfl
      rcases List.mem_cons.mp hmem with h | h
      · exact h ▸ hane
      · exact lexR_ne_nil (ha s h) hane

/-- Sortedness of each group's tails, from sortedness of the input. -/
theorem groupByPref_tails_sorted {w : Nat} {l : List (List Byte)}
    (hs : List.Sorted lexR l) :
    ∀ p ∈ groupByPref w l, List.Sorted lexR p.2 := by
  induction l with
  | nil => intro p hp; cases hp
  | cons a rest ih =>
    rcases List.sorted_cons.mp hs with ⟨ha, hrest⟩
    intro p hp
    simp only [groupByPref] at hp
    match hg : groupByPref w rest with
    | [] =>
      rw [hg] at hp
      dsimp only at hp
      rcases List.mem_singleton.mp hp with rfl
      simp
    | (k', tls') :: gs =>
      rw [hg] at hp
      dsimp only at hp
      by_cases hpre : a.take w = k'
      · rw [if_pos hpre] at hp
        rcases List.mem_cons.mp hp with heq | hmem
        · have hold : List.Sorted lexR tls' :=
            ih hrest (k', tls') (hg ▸ List.mem_cons_self _ _)
          have hrel : ∀ t ∈ tls', lexR (a.drop w) t := by
            intro t ht
            obtain ⟨s', hs', h1, h2⟩ :=
              @groupByPref_mem_tails w rest (k', tls')
                (hg ▸ List.mem_cons_self _ _) t ht
            have has' : lexR a s' := ha s' hs'
            have hsplit : a.take w ++ a.drop w = a := List.take_append_drop _ _
            have hsplit' : s'.take w ++ s'.drop w = s' := List.take_append_drop _ _
            have hkey : s'.take w = a.take w := by rw [h1, hpre]
            unfold lexR at has' ⊢
            rw [← hsplit, ← hsplit', hkey] at has'
            rw [lexble_append_cancel] at has'
            rw [h2] at has'
            exact has'
          rcases tls' with _ | ⟨u, us⟩
          · have hp2 : p.2 = [a.drop w] := by rw [heq]
            rw [hp2]; simp
          · by_cases hdup : a.drop w = u
            · have hp2 : p.2 = u :: us := by rw [heq]; simp [hdup]
              rw [hp2]
              exact hold
            · have hp2 : p.2 = a.drop w :: u :: us := by rw [heq]; simp [hdup]
              rw [hp2]
              exact List.sorted_cons.mpr ⟨hrel, hold⟩
        · exact ih hrest p (hg ▸ List.mem_cons_of_mem _ hmem)
      · rw [if_neg hpre] at hp
        rcases List.mem_cons.mp hp with heq | hmem
        · have hp2 : p.2 = [a.drop w] := by rw [heq]
          rw [hp2]; simp
        · exact ih hrest p (hg ▸ hmem)

/-- Distinctness of the group keys, from sortedness of the input. -/
theorem groupByPref_keys_pairwise {w : Nat} {l : List (List Byte)}
    (hs : List.Sorted lexR l) :
    (groupByPref w l).Pairwise (fun p q => p.1 ≠ q.1) := by
  induction l with
  | nil => simp [groupByPref]
  | cons a rest ih =>
    rcases List.sorted_cons.mp hs with ⟨ha, hrest⟩
    simp only [groupByPref]
    match hg : groupByPref w rest with
    | [] => simp
    | (k', tls') :: gs =>
      dsimp only
      have hold := ih hrest
      rw [hg] at hold
      rcases List.pairwise_cons.mp hold with ⟨hk', hgs⟩
      by_cases hpre : a.take w = k'
      · rw [if_pos hpre]
        exact List.pairwise_cons.mpr ⟨hk', hgs⟩
      · rw [if_neg hpre]
        refine List.pairwise_cons.mpr ⟨?_, List.pairwise_cons.mpr ⟨hk', hgs⟩⟩
        intro q hq
        rcases List.mem_cons.mp hq with heq | hmem
        · intro hcon
          have hcon' : a.take w = q.1 := hcon
          have hqk : q.1 = k' := by rw [heq]
          exact hpre (hcon'.trans hqk)
        · -- q is a later group of rest; its key is witnessed in rest,
          -- and sortedness sandwiches it with the head key k'.
          intro hcon
          have hcon' : a.take w = q.1 := hcon
          obtain ⟨s'', hs'', hkey⟩ :=
            groupByPref_key_witness (hg ▸ List.mem_cons_of_mem _ hmem)
          cases rest with
          | nil => cases hs''
          | cons b rest' =>
            obtain ⟨tls0, gs0, hhead⟩ :=
              @groupByPref_head_key w b rest'
            rw [hg] at hhead
            have hkb : k' = b.take w := by
              have := congrArg (fun x => x.head?.map Prod.fst) hhead
              simpa using this
            rcases List.mem_cons.mp hs'' with hsb | hsb
            · exact hpre (by rw [hcon', ← hkey, hsb, ← hkb])
            · rcases List.sorted_cons.mp hrest with ⟨hb, _⟩
              have h1 : lexR a b := ha b (List.mem_cons_self _ _)
              have h2 : lexR b s'' := hb s'' hsb
              have h3 : lexble (a.take w) (b.take w) = true :=
                lexble_take_mono w h1
              have h4 : lexble (b.take w) (s''.take w) = true :=
                lexble_take_mono w h2
              have h5 : s''.take w = a.take w := by rw [hkey, ← hcon']
              rw [h5] at h4
              have h6 : a.take w = b.take w := lexble_antisymm h3 h4
              exact hpre (by rw [h6, hkb])

/-- Fold of `buildPrefixTree` (`text.go`): strip the leading empty
entries into the `term` flag, compute the common `width`, group by that
prefix and recurse on the grouped tails.  The recursion is guarded by
the `weight` measure; for the sorted inputs produced by `TS` the guard
is always true (`buildPrefixTree_weight_lt`). -/
def buildPrefixTree (l : List (List Byte)) : PrefixTree :=
  let term := !(l.takeWhile (fun s => s.isEmpty)).isEmpty
  match l.dropWhile (fun s => s.isEmpty) with
  | [] => .node term 0 [] []
  | x :: xs =>
    let w := minWidth (x :: xs)
    let gs := groupByPref w (x :: xs)
    .node term w (gs.map Prod.fst)
      (gs.attach.map fun g =>
        if h : weight g.1.2 < weight l then buildPrefixTree g.1.2
        else .node false 0 [] [])
termination_by weight l
decreasing_by exact h

/-- Search of `patternTextSet.match` (`text.go`), rendered recursively:
take `width` bytes, look the slice up among the keys (the Go binary
search over the sorted, duplicate-free keys), descend on a hit, and on
the way back commit at the deepest node whose `term` flag is set.  The
returned count is the number of bytes matched. -/
def PrefixTree.find : PrefixTree → List Byte → Option Nat
  | .node term w keys subs, inp =>
    let s := inp.take w
    if s.length = w then
      match hf : (keys.zip subs).find? (fun p => p.1 == s) with
      | some p =>
        match PrefixTree.find p.2 (inp.drop w) with
        | some m => some (w + m)
        | none => if term then some 0 else none
      | none => if term then some 0 else none
    else if term then some 0 else none
termination_by tr _ => sizeOf tr
decreasing_by
  have h1 : p ∈ keys.zip subs := List.mem_of_find?_eq_some hf
  have h2 : p.2 ∈ subs := by
    obtain ⟨a, b⟩ := p
    exact (List.of_mem_zip h1).2
  have h3 := List.sizeOf_lt_of_mem h2
  simp only [PrefixTree.node.sizeOf_spec]
  omega

theorem PrefixTree.find_le : ∀ (tr : PrefixTree) (inp : List Byte) (m : Nat),
    tr.find inp = some m → m ≤ inp.length := by
  suffices H : ∀ (n : Nat) (tr : PrefixTree), sizeOf tr ≤ n →
      ∀ (inp : List Byte) (m : Nat), tr.find inp = some m → m ≤ inp.length by
    intro tr inp m h
    exact H (sizeOf tr) tr (le_refl _) inp m h
  intro n
  induction n with
  | zero =>
    intro tr hsz
    cases tr with
    | node term w keys subs =>
      simp only [PrefixTree.node.sizeOf_spec] at hsz
      omega
  | succ n ih =>
    intro tr hsz inp m h
    cases tr with
    | node term w keys subs =>
      rw [PrefixTree.find] at h
      by_cases hlen : (inp.take w).length = w
      · rw [if_pos hlen] at h
        match hf : (keys.zip subs).find? (fun p => p.1 == inp.take w) with
        | some p =>
          rw [hf] at h
          dsimp only at h
          have hmem : p.2 ∈ subs := by
            obtain ⟨a, b⟩ := p
            exact (List.of_mem_zip (List.mem_of_find?_eq_some hf)).2
          have hsub : sizeOf p.2 ≤ n := by
            have h3 := List.sizeOf_lt_of_mem hmem
            simp only [PrefixTree.node.sizeOf_spec] at hsz
            omega
          have hwle : w ≤ inp.length := by
            have := List.length_take w inp
            omega
          match hrec : PrefixTree.find p.2 (inp.drop w) with
          | some m' =>
            rw [hrec] at h
            have := ih p.2 hsub _ _ hrec
            have hd : (inp.drop w).length = inp.length - w := List.length_drop _ _
            cases h
            omega
          | none =>
            rw [hrec] at h
            split_ifs at h
            cases h
            omega
        | none =>
          rw [hf] at h
          dsimp only at h
          split_ifs at h
          cases h
          omega
      · rw [if_neg hlen] at h
        split_ifs at h
        cases h
        omega

/-- Specification-side comparator for the text-set claim: the length of
the longest element of `S` that is a prefix of the input. -/
def longestPrefLen (S : List (List Byte)) (inp : List Byte) : Option Nat :=
  ((S.filter fun s => s.isPrefixOf inp).map List.length).max?

theorem longestPrefLen_eq_none_iff {S : List (List Byte)} {inp : List Byte} :
    longestPrefLen S inp = none ↔ ∀ s ∈ S, ¬ s <+: inp := by
  unfold longestPrefLen
  rw [List.max?_eq_none_iff]
  constructor
  · intro h s hs hpre
    have : s ∈ S.filter fun s => s.isPrefixOf inp := by
      rw [List.mem_filter]
      exact ⟨hs, List.isPrefixOf_iff_prefix.mpr hpre⟩
    rw [List.map_eq_nil_iff] at h
    rw [h] at this
    cases this
  · intro h
    rw [List.map_eq_nil_iff, List.filter_eq_nil_iff]
    intro s hs hcon
    exact h s hs (List.isPrefixOf_iff_prefix.mp hcon)

theorem longestPrefLen_eq_some_iff {S : List (List Byte)} {inp : List Byte}
    {m : Nat} :
    longestPrefLen S inp = some m ↔
      (∃ s ∈ S, s <+: inp ∧ s.length = m) ∧
        ∀ s ∈ S, s <+: inp → s.length ≤ m := by
  unfold longestPrefLen
  rw [List.max?_eq_some_iff (fun a => le_refl a) max_choice
    (fun a b c => max_le_iff)]
  constructor
  · rintro ⟨hmem, hmax⟩
    rw [List.mem_map] at hmem
    obtain ⟨s, hsf, hlen⟩ := hmem
    rw [List.mem_filter] at hsf
    refine ⟨⟨s, hsf.1, List.isPrefixOf_iff_prefix.mp hsf.2, hlen⟩, ?_⟩
    intro t ht hpre
    exact hmax t.length (List.mem_map.mpr ⟨t, List.mem_filter.mpr
      ⟨ht, List.isPrefixOf_iff_prefix.mpr hpre⟩, rfl⟩)
  · rintro ⟨⟨s, hs, hpre, hlen⟩, hbound⟩
    refine ⟨List.mem_map.mpr ⟨s, List.mem_filter.mpr
      ⟨hs, List.isPrefixOf_iff_prefix.mpr hpre⟩, hlen⟩, ?_⟩
    intro b hb
    rw [List.mem_map] at hb
    obtain ⟨t, htf, hblen⟩ := hb
    rw [List.mem_filter] at htf
    subst hblen
    exact hbound t htf.1 (List.isPrefixOf_iff_prefix.mp htf.2)

theorem longestPrefLen_perm {S S' : List (List Byte)} (h : S.Perm S')
    (inp : List Byte) : longestPrefLen S inp = longestPrefLen S' inp := by
  match h1 : longestPrefLen S inp with
  | none =>
    rw [longestPrefLen_eq_none_iff] at h1
    rw [eq_comm, longestPrefLen_eq_none_iff]
    intro s hs
    exact h1 s (h.mem_iff.mpr hs)
  | some m =>
    rw [longestPrefLen_eq_some_iff] at h1
    rw [eq_comm, longestPrefLen_eq_some_iff]
    obtain ⟨⟨s, hs, hpre, hlen⟩, hbound⟩ := h1
    exact ⟨⟨s, h.mem_iff.mp hs, hpre, hlen⟩,
      fun t ht hp => hbound t (h.mem_iff.mpr ht) hp⟩

theorem foldl_min_ge {xs : List (List Byte)} {a c : Nat} (ha : c ≤ a)
    (hxs : ∀ t ∈ xs, c ≤ t.length) :
    c ≤ xs.foldl (fun acc s => min acc s.length) a := by
  induction xs generalizing a with
  | nil => exact ha
  | cons y ys ih =>
    simp only [List.foldl_cons]
    exact ih (le_min ha (hxs y (List.mem_cons_self _ _)))
      (fun t ht => hxs t (List.mem_cons_of_mem _ ht))

theorem minWidth_pos {x : List Byte} {xs : List (List Byte)}
    (hne : ∀ s ∈ x :: xs, s ≠ []) : 1 ≤ minWidth (x :: xs) := by
  simp only [minWidth]
  refine foldl_min_ge ?_ ?_
  · have := hne x (List.mem_cons_self _ _)
    cases x with
    | nil => exact absurd rfl this
    | cons _ _ => simp
  · intro t ht
    have := hne t (List.mem_cons_of_mem _ ht)
    cases t with
    | nil => exact absurd rfl this
    | cons _ _ => simp

theorem mem_split_takeWhile_dropWhile {l : List (List Byte)} {s : List Byte}
    (hs : s ∈ l) :
    s ∈ l.takeWhile (fun t => t.isEmpty) ∨ s ∈ l.dropWhile (fun t => t.isEmpty) := by
  rw [← List.takeWhile_append_dropWhile (fun t => t.isEmpty) l] at hs
  exact List.mem_append.mp hs

theorem mem_of_mem_dropWhile {l : List (List Byte)} {s : List Byte}
    (hs : s ∈ l.dropWhile (fun t => t.isEmpty)) : s ∈ l :=
  (List.dropWhile_sublist _).mem hs

theorem mem_takeWhile_isEmpty_eq_nil {l : List (List Byte)} {s : List Byte}
    (hs : s ∈ l.takeWhile (fun t => t.isEmpty)) : s = [] := by
  have := List.mem_takeWhile_imp hs
  exact List.isEmpty_iff.mp this

/-- Under sortedness, the leading-empties flag says exactly that the
empty string is an element. -/
theorem term_iff_sorted {l : List (List Byte)} (hs : List.Sorted lexR l) :
    ((!(l.takeWhile fun t => t.isEmpty).isEmpty) = true) ↔ [] ∈ l := by
  cases l with
  | nil => simp
  | cons a rest =>
    rcases List.sorted_cons.mp hs with ⟨ha, _⟩
    by_cases hae : a.isEmpty
    · rw [List.takeWhile_cons_of_pos hae]
      have : a = [] := List.isEmpty_iff.mp hae
      simp [this]
    · rw [List.takeWhile_cons_of_neg hae]
      simp only [List.isEmpty_nil, Bool.not_true, Bool.false_eq_true, false_iff]
      intro hmem
      have hane : a ≠ [] := fun h => hae (by simp [h])
      rcases List.mem_cons.mp hmem with h | h
      · exact hane h.symm
      · have := ha [] h
        unfold lexR at this
        exact hane (lexble_nil_right this)

theorem longestPrefLen_of_all_nil {l : List (List Byte)} {inp : List Byte}
    (h : ∀ s ∈ l, s <+: inp → s = []) :
    longestPrefLen l inp = if [] ∈ l then some 0 else none := by
  by_cases hmem : [] ∈ l
  · rw [if_pos hmem]
    rw [longestPrefLen_eq_some_iff]
    refine ⟨⟨[], hmem, List.nil_prefix, rfl⟩, ?_⟩
    intro s hs hpre
    rw [h s hs hpre]
    exact Nat.le_refl 0
  · rw [if_neg hmem]
    rw [longestPrefLen_eq_none_iff]
    intro s hs hpre
    exact hmem (h s hs hpre ▸ hs)

theorem prefix_take_eq {s inp : List Byte} {w : Nat} (h : s <+: inp)
    (hw : w ≤ s.length) : s.take w = inp.take w := by
  obtain ⟨t, rfl⟩ := h
  rw [List.take_append_of_le_length hw]

theorem pairwise_key_eq {gs : List (List Byte × List (List Byte))}
    (h : gs.Pairwise (fun p q => p.1 ≠ q.1)) {p q : List Byte × List (List Byte)}
    (hp : p ∈ gs) (hq : q ∈ gs) (hk : p.1 = q.1) : p.2 = q.2 := by
  induction gs with
  | nil => cases hp
  | cons g rest ih =>
    rcases List.pairwise_cons.mp h with ⟨hg, hrest⟩
    rcases List.mem_cons.mp hp with hp1 | hp1 <;>
      rcases List.mem_cons.mp hq with hq1 | hq1
    · rw [hp1, hq1]
    · exact absurd (hp1 ▸ hk) (hg q hq1)
    · exact absurd (hq1 ▸ hk.symm) (hg p hp1)
    · exact ih hrest hp1 hq1

/-- Validity of the recursion guard in `buildPrefixTree`: every group of
tails is strictly lighter than the input list. -/
theorem buildPrefixTree_weight_lt {l : List (List Byte)} {x : List Byte}
    {xs : List (List Byte)}
    (hdw : l.dropWhile (fun t => t.isEmpty) = x :: xs)
    (hne : ∀ s ∈ x :: xs, s ≠ []) :
    ∀ g ∈ groupByPref (minWidth (x :: xs)) (x :: xs), weight g.2 < weight l := by
  intro g hg
  have hw : ∀ s ∈ x :: xs, minWidth (x :: xs) ≤ s.length := fun s hs =>
    minWidth_le hs
  obtain ⟨hb1, _, hb3, _⟩ := @groupByPref_bound (minWidth (x :: xs)) (x :: xs)
    g.1 g.2 hw (by
      obtain ⟨a, b⟩ := g
      exact hg)
  have hwpos : 1 ≤ minWidth (x :: xs) := minWidth_pos hne
  have hsum : ((x :: xs).map List.length).sum ≤ (l.map List.length).sum := by
    conv_rhs => rw [← List.takeWhile_append_dropWhile (fun t => t.isEmpty) l]
    rw [List.map_append, List.sum_append, hdw]
    omega
  have hlen : (x :: xs).length ≤ l.length := by
    conv_rhs => rw [← List.takeWhile_append_dropWhile (fun t => t.isEmpty) l]
    rw [List.length_append, hdw]
    omega
  have htlen : 1 ≤ g.2.length := by
    cases hgl : g.2 with
    | nil => exact absurd hgl hb3
    | cons _ _ => simp
  unfold weight
  have h1 : g.2.length ≤ minWidth (x :: xs) * g.2.length := by
    calc g.2.length = 1 * g.2.length := (one_mul _).symm
    _ ≤ minWidth (x :: xs) * g.2.length := Nat.mul_le_mul_right _ hwpos
  have h2 : (1 : Nat) ≤ (x :: xs).length := by simp
  omega

/-- Unfolding of `buildPrefixTree` when the remaining entries are
non-empty, with the recursion guard discharged. -/
theorem buildPrefixTree_eq {l : List (List Byte)} {x : List Byte}
    {xs : List (List Byte)}
    (hdw : l.dropWhile (fun t => t.isEmpty) = x :: xs)
    (hne : ∀ s ∈ x :: xs, s ≠ []) :
    buildPrefixTree l = .node (!(l.takeWhile fun t => t.isEmpty).isEmpty)
      (minWidth (x :: xs))
      ((groupByPref (minWidth (x :: xs)) (x :: xs)).map Prod.fst)
      ((groupByPref (minWidth (x :: xs)) (x :: xs)).map
        (fun g => buildPrefixTree g.2)) := by
  rw [buildPrefixTree]
  rw [hdw]
  have hguard := buildPrefixTree_weight_lt hdw hne
  dsimp only
  congr 1
  rw [← List.attach_map_val (groupByPref (minWidth (x :: xs)) (x :: xs))
    (fun g => buildPrefixTree g.2)]
  apply List.map_congr_left
  intro g hg
  exact dif_pos (hguard g.1 g.2)

theorem PrefixTree.find_node (term : Bool) (w : Nat) (keys : List (List Byte))
    (subs : List PrefixTree) (inp : List Byte) :
    (PrefixTree.node term w keys subs).find inp =
      if (inp.take w).length = w then
        match (keys.zip subs).find? (fun p => p.1 == inp.take w) with
        | some p =>
          match p.2.find (inp.drop w) with
          | some m => some (w + m)
          | none => if term then some 0 else none
        | none => if term then some 0 else none
      else if term then some 0 else none := by
  rw [PrefixTree.find]
  by_cases h : (inp.take w).length = w
  · rw [if_pos h, if_pos h]
    split
    · rename_i p heq
      rw [heq]
    · rename_i heq
      rw [heq]
  · rw [if_neg h, if_neg h]

/-- Correctness of the prefix tree on sorted inputs: searching the tree
built from a sorted list returns exactly the length of the longest
element that is a prefix of the input. -/
theorem find_build_sorted : ∀ (l : List (List Byte)), List.Sorted lexR l →
    ∀ (inp : List Byte), (buildPrefixTree l).find inp = longestPrefLen l inp := by
  suffices H : ∀ (n : Nat) (l : List (List Byte)), weight l ≤ n →
      List.Sorted lexR l → ∀ inp,
      (buildPrefixTree l).find inp = longestPrefLen l inp by
    intro l hs inp
    exact H (weight l) l (le_refl _) hs inp
  intro n
  induction n with
  | zero =>
    intro l hw _ inp
    have hl : l = [] := by
      cases l with
      | nil => rfl
      | cons a as =>
        exfalso
        unfold weight at hw
        simp at hw
    subst hl
    have h1 : buildPrefixTree [] = .node false 0 [] [] := by
      rw [buildPrefixTree]
      rfl
    rw [h1, PrefixTree.find_node]
    simp [longestPrefLen]
  | succ n ih =>
    intro l hw hs inp
    match hdw : l.dropWhile (fun t => t.isEmpty) with
    | [] =>
      have hall : ∀ s ∈ l, s = [] := fun s hsl =>
        List.isEmpty_iff.mp (List.dropWhile_eq_nil_iff.mp hdw s hsl)
      have hterm := term_iff_sorted hs
      have h1 : buildPrefixTree l =
          .node (!(l.takeWhile fun t => t.isEmpty).isEmpty) 0 [] [] := by
        rw [buildPrefixTree, hdw]
      rw [h1, PrefixTree.find_node,
        longestPrefLen_of_all_nil (fun s hsl _ => hall s hsl)]
      simp only [List.take_zero, List.length_nil, if_true, List.zip_nil_left,
        List.find?_nil]
      simp only [hterm]
    | x :: xs =>
      have hsx : List.Sorted lexR (x :: xs) := by
        have hsub : List.Sublist (l.dropWhile fun t => t.isEmpty) l :=
          List.dropWhile_sublist _
        rw [hdw] at hsub
        exact hs.sublist hsub
      have hne : ∀ s ∈ x :: xs, s ≠ [] := by
        intro s hsl
        exact sorted_dropWhile_ne_nil hs s (hdw ▸ hsl)
      have hterm := term_iff_sorted hs
      have hsplit : ∀ s ∈ l, s = [] ∨ s ∈ x :: xs := by
        intro s hsl
        rcases mem_split_takeWhile_dropWhile hsl with h | h
        · exact Or.inl (mem_takeWhile_isEmpty_eq_nil h)
        · exact Or.inr (hdw ▸ h)
      have hmeml : ∀ s ∈ x :: xs, s ∈ l := fun s hsl =>
        mem_of_mem_dropWhile (hdw ▸ hsl)
      rw [buildPrefixTree_eq hdw hne, PrefixTree.find_node]
      by_cases hlen : (inp.take (minWidth (x :: xs))).length = minWidth (x :: xs)
      · rw [if_pos hlen]
        have hwle : minWidth (x :: xs) ≤ inp.length := by
          have := List.length_take (minWidth (x :: xs)) inp
          omega
        rw [List.zip_map', List.find?_map]
        cases hgf : List.find?
            ((fun p => p.1 == inp.take (minWidth (x :: xs))) ∘
              fun g => (g.1, buildPrefixTree g.2))
            (groupByPref (minWidth (x :: xs)) (x :: xs)) with
        | none =>
          simp only [Option.map_none']
          have hnil : ∀ s ∈ l, s <+: inp → s = [] := by
            intro s hsl hpre
            rcases hsplit s hsl with h | h
            · exact h
            · exfalso
              have hwle' : minWidth (x :: xs) ≤ s.length := minWidth_le h
              have htake : s.take (minWidth (x :: xs)) =
                  inp.take (minWidth (x :: xs)) := prefix_take_eq hpre hwle'
              obtain ⟨p, hp, hkey, hdropmem⟩ :=
                @groupByPref_complete (minWidth (x :: xs)) (x :: xs) s h
              have hnot : ¬ (p.1 == inp.take (minWidth (x :: xs))) = true :=
                List.find?_eq_none.mp hgf p hp
              apply hnot
              rw [beq_iff_eq, ← hkey, htake]
          rw [longestPrefLen_of_all_nil hnil]
          simp only [hterm]
        | some g0 =>
          simp only [Option.map_some']
          have hg0mem : g0 ∈ groupByPref (minWidth (x :: xs)) (x :: xs) :=
            List.mem_of_find?_eq_some hgf
          have hg0key : g0.1 = inp.take (minWidth (x :: xs)) := by
            have h1 := List.find?_some hgf
            have h2 : (g0.1 == inp.take (minWidth (x :: xs))) = true := h1
            rwa [beq_iff_eq] at h2
          have hwlt := buildPrefixTree_weight_lt hdw hne g0 hg0mem
          have hg0sorted := groupByPref_tails_sorted hsx g0 hg0mem
          have hIH := ih g0.2 (by omega) hg0sorted (inp.drop (minWidth (x :: xs)))
          have hpw := @groupByPref_keys_pairwise (minWidth (x :: xs))
            (x :: xs) hsx
          have hinp : inp.take (minWidth (x :: xs)) ++
              inp.drop (minWidth (x :: xs)) = inp := List.take_append_drop _ _
          -- any prefix-matching nonempty element contributes its tail to g0
          have hintail : ∀ s' ∈ x :: xs, s' <+: inp →
              s'.drop (minWidth (x :: xs)) ∈ g0.2 ∧
                s'.drop (minWidth (x :: xs)) <+: inp.drop (minWidth (x :: xs)) := by
            intro s' hmem hpre
            have hwle' : minWidth (x :: xs) ≤ s'.length := minWidth_le hmem
            have htake : s'.take (minWidth (x :: xs)) =
                inp.take (minWidth (x :: xs)) := prefix_take_eq hpre hwle'
            obtain ⟨p, hp, hkey, hdropmem⟩ :=
              @groupByPref_complete (minWidth (x :: xs)) (x :: xs) s' hmem
            have hpk : p.1 = g0.1 := by
              rw [← hkey, htake]
              exact hg0key.symm
            have hsame : p.2 = g0.2 := pairwise_key_eq hpw hp hg0mem hpk
            refine ⟨hsame ▸ hdropmem, ?_⟩
            have hsplit' : s' = inp.take (minWidth (x :: xs)) ++
                s'.drop (minWidth (x :: xs)) := by
              rw [← htake]
              exact (List.take_append_drop _ _).symm
            have hpre2 : inp.take (minWidth (x :: xs)) ++
                s'.drop (minWidth (x :: xs)) <+:
                inp.take (minWidth (x :: xs)) ++ inp.drop (minWidth (x :: xs)) := by
              rw [hinp, ← hsplit']
              exact hpre
            exact (List.prefix_append_right_inj _).mp hpre2
          cases hrec : (buildPrefixTree g0.2).find
              (inp.drop (minWidth (x :: xs))) with
          | some m =>
            dsimp only
            rw [hIH] at hrec
            rw [longestPrefLen_eq_some_iff] at hrec
            obtain ⟨⟨t, htmem, htpre, htlen⟩, hbound⟩ := hrec
            rw [eq_comm, longestPrefLen_eq_some_iff]
            constructor
            · obtain ⟨s, hsmem, hstake, hsdrop⟩ :=
                groupByPref_mem_tails hg0mem t htmem
              have hseq : s = inp.take (minWidth (x :: xs)) ++ t := by
                rw [← hg0key, ← hstake, ← hsdrop]
                exact (List.take_append_drop _ _).symm
              refine ⟨s, hmeml s hsmem, ?_, ?_⟩
              · rw [hseq]
                have h2 := (List.prefix_append_right_inj
                  (inp.take (minWidth (x :: xs)))).mpr htpre
                rwa [hinp] at h2
              · rw [hseq, List.length_append, hlen, htlen]
            · intro s' hs'l hs'pre
              rcases hsplit s' hs'l with h | h
              · rw [h]
                exact Nat.zero_le _
              · obtain ⟨hdropmem', hdroppre⟩ := hintail s' h hs'pre
                have hb := hbound _ hdropmem' hdroppre
                have hwle' : minWidth (x :: xs) ≤ s'.length := minWidth_le h
                have hslen := List.length_drop (minWidth (x :: xs)) s'
                omega
          | none =>
            dsimp only
            rw [hIH] at hrec
            rw [longestPrefLen_eq_none_iff] at hrec
            have hnil : ∀ s ∈ l, s <+: inp → s = [] := by
              intro s hsl hpre
              rcases hsplit s hsl with h | h
              · exact h
              · exfalso
                obtain ⟨hdropmem', hdroppre⟩ := hintail s h hpre
                exact hrec _ hdropmem' hdroppre
            rw [longestPrefLen_of_all_nil hnil]
            simp only [hterm]
      · rw [if_neg hlen]
        have hwgt : inp.length < minWidth (x :: xs) := by
          have := List.length_take (minWidth (x :: xs)) inp
          omega
        have hnil : ∀ s ∈ l, s <+: inp → s = [] := by
          intro s hsl hpre
          rcases hsplit s hsl with h | h
          · exact h
          · exfalso
            have h1 : minWidth (x :: xs) ≤ s.length := minWidth_le h
            have h2 := hpre.length_le
            omega
        rw [longestPrefLen_of_all_nil hnil]
        simp only [hterm]

/-- Pattern tree.  Each constructor mirrors one `pattern*` struct of the
source (the case-insensitive variants and the Unicode class tables are
not modelled).  User hooks and constructors are arbitrary functions. -/
inductive Pattern where
  | boolean (ok : Bool)
  | abort (msg : String)
  | lineAnchor (linestart : Bool)
  | eofPred
  | predicate (not : Bool) (pat : Pattern)
  | andPred (pats : List Pattern)
  | orPred (pats : List Pattern)
  | ifPat (cond yes no : Pattern)
  | switchPat (cases : List (Pattern × Pattern)) (otherwise : Pattern)
  | text (t : List Byte)
  | backward (t : List Byte)
  | textSet (sorted : List (List Byte)) (tree : PrefixTree)
  | textRefered (grpname : String)
  | backwardRefered (grpname : String)
  | sequence (pats : List Pattern)
  | alternative (pats : List Pattern)
  | skip (n : Nat)
  | anyRuneUntil (without : Bool) (pat : Pattern)
  | qualifierAtLeast (n : Nat) (pat : Pattern)
  | qualifierOptional (pat : Pattern)
  | qualifierRange (m n : Nat) (pat : Pattern)
  | anyRune
  | runeSet (not : Bool) (charset : List Nat)
  | runeRange (not : Bool) (ranges : List (Nat × Nat))
  | grouping (grpname : String) (pat : Pattern)
  | trigger (hook : List Byte → Position → Option PegError) (pat : Pattern)
  | injector (fn : List Byte → Nat × Bool) (pat : Pattern)
  | letPat (vars : List (String × Pattern)) (pat : Pattern)
  | captureVariable (varname : String) (capture : Bool)
  | captureToken (toktype : Int) (pat : Pattern)
  | captureCons (cons : NonTermCons) (pat : Pattern)
  | captureTerm (cons : TermCons) (pat : Pattern)

/-- `T` (`text.go`): literal text; empty text is `True`. -/
def T (t : List Byte) : Pattern :=
  if t.length = 0 then .boolean true else .text t

/-- `TS` (`text.go`): the sorted set together with its prefix tree. -/
def TS (textset : List (List Byte)) : Pattern :=
  .textSet (sortLex textset) (buildPrefixTree (sortLex textset))

/-- `Test` (`predicating.go`). -/
def Test (pat : Pattern) : Pattern := .predicate false pat

/-- `Not` (`predicating.go`). -/
def Not (pat : Pattern) : Pattern := .predicate true pat

/-- `Ref` (`text.go`). -/
def Ref (grpname : String) : Pattern := .textRefered grpname

/-- `G` / `NG` (`grouping.go`). -/
def NG (grpname : String) (pat : Pattern) : Pattern := .grouping grpname pat

/-- `Inject` (`grouping.go`); a nil function cannot be modelled, so the
function is always attached. -/
def Inject (fn : List Byte → Nat × Bool) (pat : Pattern) : Pattern :=
  .injector fn pat

/-- `CK` (`capturing.go`): the token constructor for a type. -/
def CK (toktype : Int) (pat : Pattern) : Pattern := .captureToken toktype pat

/-- Matching configuration (`peg.go`).  Non-positive limits mean
unlimited. -/
structure Config where
  callstackLimit : Int := 0
  repeatLimit : Int := 0
  disableLineColumnCounting : Bool := false
  disableGrouping : Bool := false
  disableCapturing : Bool := false
deriving Repr

/-- `DefaultCallstackLimit` / `DefaultRepeatLimit` (`peg.go`). -/
def defaultConfig : Config :=
  { callstackLimit := 500
    repeatLimit := 500
    disableLineColumnCounting := false
    disableGrouping := false
    disableCapturing := false }

/-- Per-frame local values (`context.go`). -/
structure LocalValues where
  i : Nat := 0
deriving DecidableEq, Repr

/-- Return values of a pattern match (`context.go`). -/
structure ReturnValues where
  ok : Bool := false
  n : Nat := 0
  groups : List (List Byte) := []
  namedGroups : List (String × List Byte) := []
deriving DecidableEq, Repr

/-- Saved callstack frame (`context.go`). -/
structure StackFrame where
  pat : Option Pattern
  at_ : Nat
  n : Nat
  locals : LocalValues
  levels : Nat
  groups : List (List Byte)
  namedGroups : List (String × List Byte)

/-- Pending non-terminal construction (`context.go`). -/
structure CaptureThunk where
  cons : Option NonTermCons
  args : List Capture

instance : Inhabited CaptureThunk := ⟨{ cons := none, args := [] }⟩

/-- Engine context (`context.go`).  The callstack and scope stacks keep
their top at the head; `groups` and `capstack` keep the Go slice order
(bottom of `capstack` at the head, pushes at the end). -/
structure Context where
  config : Config
  text : List Byte
  at_ : Nat
  n : Nat
  pat : Option Pattern
  locals : LocalValues
  isret : Bool
  ret : ReturnValues
  groups : List (List Byte)
  namedGroups : List (String × List Byte)
  levels : Nat
  callstack : List StackFrame
  scopes : List (List (String × Pattern))
  capstack : List CaptureThunk

namespace Context

/-- `context.reset` / `newContext`. -/
def reset (pat : Pattern) (text : List Byte) (config : Config) : Context :=
  { config := config
    text := text
    at_ := 0
    n := 0
    pat := some pat
    locals := {}
    isret := false
    ret := {}
    levels := 0
    callstack := []
    groups := []
    namedGroups := []
    scopes := []
    capstack := [{ cons := none, args := [] }] }

/-- `context.consume`: move the cursor forward. -/
def consume (k : Nat) (ctx : Context) : Context :=
  { ctx with n := ctx.n + k, at_ := ctx.at_ + k }

/-- `context.span`: the matched text `text[at-n:at]`. -/
def span (ctx : Context) : List Byte :=
  (ctx.text.take ctx.at_).drop (ctx.at_ - ctx.n)

/-- `context.readNext`: next `k` bytes, clamped at the end. -/
def readNext (k : Nat) (ctx : Context) : List Byte :=
  (ctx.text.drop ctx.at_).take k

/-- `context.readPrev`: previous `k` bytes, clamped at the start. -/
def readPrev (k : Nat) (ctx : Context) : List Byte :=
  if ctx.at_ < k then ctx.text.take ctx.at_
  else (ctx.text.take ctx.at_).drop (ctx.at_ - k)

/-- `context.readRune` (`utf8.DecodeRuneInString`). -/
def readRune (ctx : Context) : Nat × Nat :=
  decodeRune (ctx.text.drop ctx.at_)

/-- `context.tell`: cursor position, zeroed when line/column counting is
disabled. -/
def tell (ctx : Context) : Position :=
  if ctx.config.disableLineColumnCounting then
    { offest := ctx.at_, line := 0, column := 0 }
  else calculate ctx.text ctx.at_

/-- `context.reachedRepeatLimit`. -/
def reachedRepeatLimit (times : Nat) (ctx : Context) : Bool :=
  0 < ctx.config.repeatLimit ∧ ctx.config.repeatLimit ≤ (times : Int)

/-- `context.call`: check the callstack limit, push the current frame,
bump `levels`, and set up the callee's fresh frame (`n = 0`, cleared
locals/return/groups). -/
def call (callee : Pattern) (ctx : Context) : Except PegError Context :=
  if 0 < ctx.config.callstackLimit ∧
      ctx.config.callstackLimit ≤ (ctx.levels : Int) then
    .error .callstackOverflow
  else
    let frame : StackFrame :=
      { pat := ctx.pat
        at_ := ctx.at_
        n := ctx.n
        locals := ctx.locals
        levels := ctx.levels
        groups := ctx.groups
        namedGroups := ctx.namedGroups }
    .ok { ctx with
      callstack := frame :: ctx.callstack
      levels := ctx.levels + 1
      n := 0
      pat := some callee
      locals := {}
      isret := false
      ret := {}
      groups := []
      namedGroups := [] }

/-- `context.execute`: tail invocation — no frame pushed, requires
`n = 0`, still counts against the callstack limit. -/
def execute (callee : Pattern) (ctx : Context) : Except PegError Context :=
  if ctx.n ≠ 0 then .error .executeWhenConsumed
  else if 0 < ctx.config.callstackLimit ∧
      ctx.config.callstackLimit ≤ (ctx.levels : Int) then
    .error .callstackOverflow
  else
    .ok { ctx with
      levels := ctx.levels + 1
      pat := some callee
      locals := {}
      isret := false
      ret := {} }

/-- `context.returns`: set the return values; pop and restore the top
frame, merging the child's groups into the parent's exactly when the
child succeeded (child named groups overwrite); with an empty callstack
clear `pat`, halting the engine. -/
def returns (rv : ReturnValues) (ctx : Context) : Except PegError Context :=
  match ctx.callstack with
  | [] => .ok { ctx with isret := true, ret := rv, pat := none }
  | f :: rest =>
    if ctx.levels = 0 then .error .cornerCase
    else
      .ok { ctx with
        isret := true
        ret := rv
        callstack := rest
        pat := f.pat
        at_ := f.at_
        n := f.n
        locals := f.locals
        levels := f.levels
        groups := if rv.ok then f.groups ++ rv.groups else f.groups
        namedGroups :=
          if rv.ok then rv.namedGroups ++ f.namedGroups else f.namedGroups }

/-- `context.group`: store the span into the named groups (overwriting)
or push it onto the anonymous groups; no-op when grouping is disabled. -/
def group (grpname : String) (ctx : Context) : Context :=
  if ctx.config.disableGrouping then ctx
  else if grpname ≠ "" then
    { ctx with namedGroups := (grpname, ctx.span) :: ctx.namedGroups }
  else { ctx with groups := ctx.groups ++ [ctx.span] }

/-- `context.refer`: resolve a reference — named groups of the current
frame first, then the callstack from top to bottom; for the empty name
the most recent anonymous group, searched the same way; empty string
when nothing is found or grouping is disabled. -/
def refer (grpname : String) (ctx : Context) : List Byte :=
  if ctx.config.disableGrouping then []
  else if grpname ≠ "" then
    match ctx.namedGroups.lookup grpname with
    | some g => g
    | none =>
      let rec goNamed : List StackFrame → List Byte
        | [] => []
        | f :: rest =>
          match f.namedGroups.lookup grpname with
          | some g => g
          | none => goNamed rest
      goNamed ctx.callstack
  else
    if ctx.groups ≠ [] then ctx.groups.getLastD []
    else
      let rec goAnon : List StackFrame → List Byte
        | [] => []
        | f :: rest =>
          if f.groups ≠ [] then f.groups.getLastD []
          else goAnon rest
      goAnon ctx.callstack

/-- `context.push`: append a capture to the top capture frame. -/
def push (cap : Capture) (ctx : Context) : Except PegError Context :=
  if ctx.config.disableCapturing then .ok ctx
  else if ctx.capstack.length < 1 then .error .cornerCase
  else
    let last := ctx.capstack.getLast!
    .ok { ctx with capstack := ctx.capstack.dropLast ++
      [{ cons := last.cons, args := last.args ++ [cap] }] }

/-- `context.begin`: open a non-terminal construction. -/
def begin (cons : NonTermCons) (ctx : Context) : Context :=
  if ctx.config.disableCapturing then ctx
  else { ctx with capstack := ctx.capstack ++ [{ cons := some cons, args := [] }] }

/-- `context.end`: close the top construction; on success invoke its
constructor and push the result. -/
def endCap (matched : Bool) (ctx : Context) : Except PegError Context :=
  if ctx.config.disableCapturing then .ok ctx
  else if ctx.capstack.length < 2 then .error .cornerCase
  else
    let thunk := ctx.capstack.getLast!
    let ctx := { ctx with capstack := ctx.capstack.dropLast }
    if !matched then .ok ctx
    else
      match thunk.cons with
      | none => .error .nilConstructor
      | some f =>
        match f thunk.args with
        | .error e => .error e
        | .ok cap => ctx.push cap

/-- `context.enter` / `context.leave` / `context.lookup`. -/
def enter (ns : List (String × Pattern)) (ctx : Context) : Context :=
  { ctx with scopes := ns :: ctx.scopes }

def leave (ctx : Context) : Context :=
  { ctx with scopes := ctx.scopes.tail }

def lookupVar (name : String) (ctx : Context) : Option Pattern :=
  let rec go : List (List (String × Pattern)) → Option Pattern
    | [] => none
    | ns :: rest =>
      match ns.lookup name with
      | some pat => some pat
      | none => go rest
  go ctx.scopes

/-- `context.justReturned`: read and clear the `isret` flag. -/
def justReturned (ctx : Context) : Bool × Context :=
  (ctx.isret, { ctx with isret := false })

end Context

/-- The four ways a pattern step yields back to the trampoline. -/
inductive Yield where
  | call (q : Pattern)
  | exec (q : Pattern)
  | ret (rv : ReturnValues)
  | err (e : PegError)

/-- `context.returnsPredication` payload: no text consumed. -/
def predicatesRV (ctx : Context) (ok : Bool) : ReturnValues :=
  { ok := ok, n := 0, groups := ctx.groups, namedGroups := ctx.namedGroups }

/-- `context.returnsMatched` payload: commit the consumed text. -/
def commitRV (ctx : Context) : ReturnValues :=
  { ok := true, n := ctx.n, groups := ctx.groups, namedGroups := ctx.namedGroups }

/-- Loop of `patternSkip.match`: consume `k` runes, predicating false on
a zero-length read. -/
def skipLoop : Nat → Context → Context × Yield
  | 0, ctx => (ctx, .ret (commitRV ctx))
  | k + 1, ctx =>
    let sz := ctx.readRune.2
    let ctx := ctx.consume sz
    if sz = 0 then (ctx, .ret (predicatesRV ctx false))
    else skipLoop k ctx

/-- `patternRuneSet.has`: membership, flipped by `not`.  The binary
search of the Go code over its sorted duplicate-free set is containment. -/
def runeSetHas (not : Bool) (charset : List Nat) (r : Nat) : Bool :=
  let ok := charset.contains r
  if not then !ok else ok

/-- `patternRuneRange.has`. -/
def runeRangeHas (not : Bool) (ranges : List (Nat × Nat)) (r : Nat) : Bool :=
  let ok := ranges.any fun p => decide (p.1 ≤ r ∧ r ≤ p.2)
  if not then !ok else ok

open Context in
/-- One invocation of `pat.match(ctx)`: the pure state updates of the
body followed by the single yield it ends in.  Each case transcribes the
corresponding `match` method of the source. -/
def matchBody (p : Pattern) (ctx : Context) : Context × Yield :=
  match p with
  | .boolean ok => (ctx, .ret (predicatesRV ctx ok))
  | .abort msg => (ctx, .err (.abortErr ctx.tell msg))
  | .lineAnchor linestart =>
    let pv := ctx.readPrev 1
    let nx := ctx.readNext 1
    if linestart then
      if pv = [] then (ctx, .ret (predicatesRV ctx true))
      else
        (ctx, .ret (predicatesRV ctx
          (decide (pv = [10] ∨ (pv = [13] ∧ nx ≠ [10])))))
    else
      if nx = [] then (ctx, .ret (predicatesRV ctx true))
      else
        (ctx, .ret (predicatesRV ctx
          (decide (nx = [13] ∨ (nx = [10] ∧ pv ≠ [13])))))
  | .eofPred => (ctx, .ret (predicatesRV ctx (decide (ctx.readNext 1 = []))))
  | .predicate nt q =>
    let (b, ctx) := ctx.justReturned
    if b = false then (ctx, .call q)
    else
      let ok := if nt then !ctx.ret.ok else ctx.ret.ok
      (ctx, .ret (predicatesRV ctx ok))
  | .andPred pats =>
    if h1 : ctx.locals.i < pats.length then
      let cur := pats.get ⟨ctx.locals.i, h1⟩
      let (b, ctx) := ctx.justReturned
      if b = false then (ctx, .call cur)
      else if ctx.ret.ok = false then (ctx, .ret (predicatesRV ctx false))
      else
        let ctx := { ctx with locals := { i := ctx.locals.i + 1 } }
        if h2 : ctx.locals.i < pats.length then
          (ctx, .call (pats.get ⟨ctx.locals.i, h2⟩))
        else (ctx, .ret (predicatesRV ctx true))
    else (ctx, .ret (predicatesRV ctx true))
  | .orPred pats =>
    if h1 : ctx.locals.i < pats.length then
      let cur := pats.get ⟨ctx.locals.i, h1⟩
      let (b, ctx) := ctx.justReturned
      if b = false then (ctx, .call cur)
      else if ctx.ret.ok then (ctx, .ret (predicatesRV ctx true))
      else
        let ctx := { ctx with locals := { i := ctx.locals.i + 1 } }
        if h2 : ctx.locals.i < pats.length then
          (ctx, .call (pats.get ⟨ctx.locals.i, h2⟩))
        else (ctx, .ret (predicatesRV ctx false))
    else (ctx, .ret (predicatesRV ctx false))
  | .ifPat cond yes no =>
    let (b, ctx) := ctx.justReturned
    if b = false then (ctx, .call cond)
    else if ctx.ret.ok then (ctx, .exec yes)
    else (ctx, .exec no)
  | .switchPat cases otherwise =>
    if h1 : ctx.locals.i < cases.length then
      let cur := cases.get ⟨ctx.locals.i, h1⟩
      let (b, ctx) := ctx.justReturned
      if b = false then (ctx, .call cur.1)
      else if ctx.ret.ok then (ctx, .exec cur.2)
      else
        let ctx := { ctx with locals := { i := ctx.locals.i + 1 } }
        if h2 : ctx.locals.i < cases.length then
          (ctx, .call (cases.get ⟨ctx.locals.i, h2⟩).1)
        else (ctx, .exec otherwise)
    else (ctx, .exec otherwise)
  | .text t =>
    let s := ctx.readNext t.length
    if s = t then
      let ctx := ctx.consume s.length
      (ctx, .ret (commitRV ctx))
    else (ctx, .ret (predicatesRV ctx false))
  | .backward t =>
    (ctx, .ret (predicatesRV ctx (decide (ctx.readPrev t.length = t))))
  | .textSet _ tree =>
    match tree.find (ctx.text.drop ctx.at_) with
    | some m =>
      let ctx := ctx.consume m
      (ctx, .ret (commitRV ctx))
    | none => (ctx, .ret (predicatesRV ctx false))
  | .textRefered grpname =>
    let t := ctx.refer grpname
    if ctx.readNext t.length = t then
      let ctx := ctx.consume t.length
      (ctx, .ret (commitRV ctx))
    else (ctx, .ret (predicatesRV ctx false))
  | .backwardRefered grpname =>
    let t := ctx.refer grpname
    (ctx, .ret (predicatesRV ctx (decide (ctx.readPrev t.length = t))))
  | .sequence pats =>
    if h1 : ctx.locals.i < pats.length then
      let cur := pats.get ⟨ctx.locals.i, h1⟩
      let (b, ctx) := ctx.justReturned
      if b = false then (ctx, .call cur)
      else if ctx.ret.ok = false then (ctx, .ret (predicatesRV ctx false))
      else
        let ctx := ctx.consume ctx.ret.n
        let ctx := { ctx with locals := { i := ctx.locals.i + 1 } }
        if h2 : ctx.locals.i < pats.length then
          (ctx, .call (pats.get ⟨ctx.locals.i, h2⟩))
        else (ctx, .ret (commitRV ctx))
    else (ctx, .ret (commitRV ctx))
  | .alternative pats =>
    if h1 : ctx.locals.i < pats.length then
      let cur := pats.get ⟨ctx.locals.i, h1⟩
      let (b, ctx) := ctx.justReturned
      if b = false then
        if ctx.locals.i = pats.length - 1 then (ctx, .exec cur)
        else (ctx, .call cur)
      else if ctx.ret.ok then
        let ctx := ctx.consume ctx.ret.n
        (ctx, .ret (commitRV ctx))
      else
        let ctx := { ctx with locals := { i := ctx.locals.i + 1 } }
        if h2 : ctx.locals.i < pats.length then
          if ctx.locals.i = pats.length - 1 then
            (ctx, .exec (pats.get ⟨ctx.locals.i, h2⟩))
          else (ctx, .call (pats.get ⟨ctx.locals.i, h2⟩))
        else (ctx, .ret (predicatesRV ctx false))
    else (ctx, .ret (predicatesRV ctx false))
  | .skip k => skipLoop k ctx
  | .anyRuneUntil without q =>
    if ctx.reachedRepeatLimit ctx.locals.i then (ctx, .err .reachedRepeatLimit)
    else
      let (b, ctx) := ctx.justReturned
      if b = false then (ctx, .call q)
      else if ctx.ret.ok then
        let ctx := if without then ctx else ctx.consume ctx.ret.n
        (ctx, .ret (commitRV ctx))
      else
        let sz := ctx.readRune.2
        let ctx := ctx.consume sz
        let ctx := { ctx with locals := { i := ctx.locals.i + 1 } }
        if sz = 0 then (ctx, .ret (predicatesRV ctx false))
        else if ctx.reachedRepeatLimit ctx.locals.i then
          (ctx, .err .reachedRepeatLimit)
        else (ctx, .call q)
  | .qualifierAtLeast nmin q =>
    if ctx.reachedRepeatLimit ctx.locals.i then (ctx, .err .reachedRepeatLimit)
    else
      let (b, ctx) := ctx.justReturned
      if b = false then (ctx, .call q)
      else if ctx.ret.ok = false then
        if ctx.locals.i < nmin then (ctx, .ret (predicatesRV ctx false))
        else (ctx, .ret (commitRV ctx))
      else
        let ctx := ctx.consume ctx.ret.n
        let ctx := { ctx with locals := { i := ctx.locals.i + 1 } }
        if ctx.reachedRepeatLimit ctx.locals.i then
          (ctx, .err .reachedRepeatLimit)
        else (ctx, .call q)
  | .qualifierOptional q =>
    let (b, ctx) := ctx.justReturned
    if b = false then (ctx, .call q)
    else if ctx.ret.ok = false then (ctx, .ret (predicatesRV ctx true))
    else
      let ctx := ctx.consume ctx.ret.n
      (ctx, .ret (commitRV ctx))
  | .qualifierRange m nn q =>
    if ctx.locals.i < nn then
      if ctx.reachedRepeatLimit ctx.locals.i then (ctx, .err .reachedRepeatLimit)
      else
        let (b, ctx) := ctx.justReturned
        if b = false then (ctx, .call q)
        else if ctx.ret.ok = false then
          if ctx.locals.i < m then (ctx, .ret (predicatesRV ctx false))
          else (ctx, .ret (commitRV ctx))
        else
          let ctx := ctx.consume ctx.ret.n
          let ctx := { ctx with locals := { i := ctx.locals.i + 1 } }
          if ctx.locals.i < nn then
            if ctx.reachedRepeatLimit ctx.locals.i then
              (ctx, .err .reachedRepeatLimit)
            else (ctx, .call q)
          else (ctx, .ret (commitRV ctx))
    else (ctx, .ret (commitRV ctx))
  | .anyRune =>
    let sz := ctx.readRune.2
    if sz = 0 then (ctx, .ret (predicatesRV ctx false))
    else
      let ctx := ctx.consume sz
      (ctx, .ret (commitRV ctx))
  | .runeSet nt charset =>
    let (r, sz) := ctx.readRune
    if sz ≠ 0 ∧ runeSetHas nt charset r = true then
      let ctx := ctx.consume sz
      (ctx, .ret (commitRV ctx))
    else (ctx, .ret (predicatesRV ctx false))
  | .runeRange nt ranges =>
    let (r, sz) := ctx.readRune
    if sz ≠ 0 ∧ runeRangeHas nt ranges r = true then
      let ctx := ctx.consume sz
      (ctx, .ret (commitRV ctx))
    else (ctx, .ret (predicatesRV ctx false))
  | .grouping grpname q =>
    let (b, ctx) := ctx.justReturned
    if b = false then (ctx, .call q)
    else if ctx.ret.ok = false then (ctx, .ret (predicatesRV ctx false))
    else
      let ctx := ctx.consume ctx.ret.n
      let ctx := ctx.group grpname
      (ctx, .ret (commitRV ctx))
  | .trigger hook q =>
    let (b, ctx) := ctx.justReturned
    if b = false then (ctx, .call q)
    else if ctx.ret.ok = false then (ctx, .ret (predicatesRV ctx false))
    else
      let head := ctx.tell
      let ctx := ctx.consume ctx.ret.n
      match hook ctx.span head with
      | some e => (ctx, .err e)
      | none => (ctx, .ret (commitRV ctx))
  | .injector fn q =>
    let (b, ctx) := ctx.justReturned
    if b = false then (ctx, .call q)
    else if ctx.ret.ok then
      let res := fn (ctx.readNext ctx.ret.n)
      if res.2 then
        let ctx := ctx.consume res.1
        (ctx, .ret (commitRV ctx))
      else (ctx, .ret (predicatesRV ctx false))
    else (ctx, .ret (predicatesRV ctx false))
  | .letPat vars q =>
    let (b, ctx) := ctx.justReturned
    if b = false then
      let ctx := ctx.enter vars
      (ctx, .call q)
    else
      let rv := ctx.ret
      let ctx := ctx.leave
      (ctx, .ret rv)
  | .captureVariable varname capture =>
    let (b, ctx) := ctx.justReturned
    if b = false then
      match ctx.lookupVar varname with
      | none => (ctx, .err (.undefinedVar varname))
      | some callee =>
        if capture = false then (ctx, .exec callee)
        else
          let ctx := ctx.begin fun subs => .ok (.variable varname subs)
          (ctx, .call callee)
    else
      let rv := ctx.ret
      match ctx.endCap rv.ok with
      | .error e => (ctx, .err e)
      | .ok ctx2 => (ctx2, .ret rv)
  | .captureToken toktype q =>
    let (b, ctx) := ctx.justReturned
    if b = false then (ctx, .call q)
    else if ctx.ret.ok = false then (ctx, .ret (predicatesRV ctx false))
    else
      let head := ctx.tell
      let ctx := ctx.consume ctx.ret.n
      match ctx.push (.token toktype ctx.span head) with
      | .error e => (ctx, .err e)
      | .ok ctx2 => (ctx2, .ret (commitRV ctx2))
  | .captureCons cons q =>
    let (b, ctx) := ctx.justReturned
    if b = false then
      let ctx := ctx.begin cons
      (ctx, .call q)
    else
      let rv := ctx.ret
      match ctx.endCap rv.ok with
      | .error e => (ctx, .err e)
      | .ok ctx2 => (ctx2, .ret rv)
  | .captureTerm cons q =>
    let (b, ctx) := ctx.justReturned
    if b = false then (ctx, .call q)
    else if ctx.ret.ok = false then (ctx, .ret (predicatesRV ctx false))
    else
      let head := ctx.tell
      let ctx := ctx.consume ctx.ret.n
      match cons ctx.span head with
      | .error e => (ctx, .err e)
      | .ok cap =>
        match ctx.push cap with
        | .error e => (ctx, .err e)
        | .ok ctx2 => (ctx2, .ret (commitRV ctx2))

/-- Hand the body's final yield to the engine helpers. -/
def applyYield : Context × Yield → Except PegError Context
  | (ctx, .call q) => ctx.call q
  | (ctx, .exec q) => ctx.execute q
  | (ctx, .ret rv) => ctx.returns rv
  | (_, .err e) => .error e

/-- One iteration of the trampoline: `ctx.pat.match(ctx)`. -/
def step (p : Pattern) (ctx : Context) : Except PegError Context :=
  applyYield (matchBody p ctx)

/-- Outcome of a fuelled run: halted normally, aborted with an error, or
out of fuel. -/
inductive Outcome where
  | done (c : Context)
  | err (e : PegError)
  | more (c : Context)

/-- `context.match`: loop while `pat` is non-nil, aborting on error. -/
def run : Nat → Context → Outcome
  | 0, c => .more c
  | fuel + 1, c =>
    match c.pat with
    | none => .done c
    | some p =>
      match step p c with
      | .ok c2 => run fuel c2
      | .error e => .err e

/-- `Result` (`peg.go`). -/
structure Result where
  ok : Bool
  n : Nat
  groups : List (List Byte)
  namedGroups : List (String × List Byte)
  captures : List Capture

/-- `Config.Match` (`peg.go`), fuel-indexed (`none` = fuel exhausted;
the Go loop simply keeps running).  The nil-main-pattern check cannot
arise here because `Pattern` is not nullable. -/
def Config.Match (fuel : Nat) (cfg : Config) (pat : Pattern)
    (text : List Byte) : Option (Except PegError Result) :=
  match run fuel (Context.reset pat text cfg) with
  | .more _ => none
  | .err e => some (.error e)
  | .done c =>
    some (.ok (if c.ret.ok then
      { ok := true
        n := c.ret.n
        groups := c.groups
        namedGroups := c.namedGroups
        captures := (c.capstack.headD default).args }
    else
      { ok := false, n := 0, groups := [], namedGroups := [], captures := [] }))

/-- `Config.Parse` (`peg.go`): force line/column counting and capturing
on, then require a full match. -/
def Config.Parse (fuel : Nat) (cfg : Config) (pat : Pattern)
    (text : List Byte) : Option (Except PegError (List Capture)) :=
  let config := { cfg with
    disableLineColumnCounting := false
    disableCapturing := false }
  match Config.Match fuel config pat text with
  | none => none
  | some (.error e) => some (.error e)
  | some (.ok r) =>
    some (if r.ok = false then .error .dismatch
      else if r.n ≠ text.length then .error .notFullMatched
      else .ok r.captures)

/-- `SOL` / `EOL` (`predicating.go`). -/
def SOL : Pattern := .lineAnchor true

def EOL : Pattern := .lineAnchor false

section FieldLemmas

variable (ctx : Context)

@[simp] theorem consume_callstack (k : Nat) :
    (ctx.consume k).callstack = ctx.callstack := rfl

@[simp] theorem consume_levels (k : Nat) :
    (ctx.consume k).levels = ctx.levels := rfl

@[simp] theorem consume_config (k : Nat) :
    (ctx.consume k).config = ctx.config := rfl

@[simp] theorem consume_text (k : Nat) : (ctx.consume k).text = ctx.text := rfl

@[simp] theorem consume_pat (k : Nat) : (ctx.consume k).pat = ctx.pat := rfl

@[simp] theorem consume_scopes (k : Nat) :
    (ctx.consume k).scopes = ctx.scopes := rfl

@[simp] theorem consume_capstack (k : Nat) :
    (ctx.consume k).capstack = ctx.capstack := rfl

@[simp] theorem group_callstack (g : String) :
    (ctx.group g).callstack = ctx.callstack := by
  unfold Context.group
  split_ifs <;> rfl

@[simp] theorem group_levels (g : String) :
    (ctx.group g).levels = ctx.levels := by
  unfold Context.group
  split_ifs <;> rfl

@[simp] theorem group_config (g : String) :
    (ctx.group g).config = ctx.config := by
  unfold Context.group
  split_ifs <;> rfl

@[simp] theorem group_text (g : String) : (ctx.group g).text = ctx.text := by
  unfold Context.group
  split_ifs <;> rfl

@[simp] theorem group_pat (g : String) : (ctx.group g).pat = ctx.pat := by
  unfold Context.group
  split_ifs <;> rfl

@[simp] theorem group_capstack (g : String) :
    (ctx.group g).capstack = ctx.capstack := by
  unfold Context.group
  split_ifs <;> rfl

@[simp] theorem group_at (g : String) : (ctx.group g).at_ = ctx.at_ := by
  unfold Context.group
  split_ifs <;> rfl

@[simp] theorem group_n (g : String) : (ctx.group g).n = ctx.n := by
  unfold Context.group
  split_ifs <;> rfl

@[simp] theorem begin_callstack (cons : NonTermCons) :
    (ctx.begin cons).callstack = ctx.callstack := by
  unfold Context.begin
  split_ifs <;> rfl

@[simp] theorem begin_levels (cons : NonTermCons) :
    (ctx.begin cons).levels = ctx.levels := by
  unfold Context.begin
  split_ifs <;> rfl

@[simp] theorem begin_config (cons : NonTermCons) :
    (ctx.begin cons).config = ctx.config := by
  unfold Context.begin
  split_ifs <;> rfl

@[simp] theorem begin_text (cons : NonTermCons) :
    (ctx.begin cons).text = ctx.text := by
  unfold Context.begin
  split_ifs <;> rfl

@[simp] theorem begin_pat (cons : NonTermCons) :
    (ctx.begin cons).pat = ctx.pat := by
  unfold Context.begin
  split_ifs <;> rfl

@[simp] theorem begin_at (cons : NonTermCons) :
    (ctx.begin cons).at_ = ctx.at_ := by
  unfold Context.begin
  split_ifs <;> rfl

@[simp] theorem begin_n (cons : NonTermCons) : (ctx.begin cons).n = ctx.n := by
  unfold Context.begin
  split_ifs <;> rfl

@[simp] theorem enter_callstack (ns : List (String × Pattern)) :
    (ctx.enter ns).callstack = ctx.callstack := rfl

@[simp] theorem enter_levels (ns : List (String × Pattern)) :
    (ctx.enter ns).levels = ctx.levels := rfl

@[simp] theorem enter_config (ns : List (String × Pattern)) :
    (ctx.enter ns).config = ctx.config := rfl

@[simp] theorem enter_text (ns : List (String × Pattern)) :
    (ctx.enter ns).text = ctx.text := rfl

@[simp] theorem enter_pat (ns : List (String × Pattern)) :
    (ctx.enter ns).pat = ctx.pat := rfl

@[simp] theorem enter_capstack (ns : List (String × Pattern)) :
    (ctx.enter ns).capstack = ctx.capstack := rfl

@[simp] theorem enter_at (ns : List (String × Pattern)) :
    (ctx.enter ns).at_ = ctx.at_ := rfl

@[simp] theorem enter_n (ns : List (String × Pattern)) :
    (ctx.enter ns).n = ctx.n := rfl

@[simp] theorem leave_callstack : ctx.leave.callstack = ctx.callstack := rfl

@[simp] theorem leave_levels : ctx.leave.levels = ctx.levels := rfl

@[simp] theorem leave_config : ctx.leave.config = ctx.config := rfl

@[simp] theorem leave_text : ctx.leave.text = ctx.text := rfl

@[simp] theorem leave_pat : ctx.leave.pat = ctx.pat := rfl

@[simp] theorem leave_capstack : ctx.leave.capstack = ctx.capstack := rfl

@[simp] theorem leave_at : ctx.leave.at_ = ctx.at_ := rfl

@[simp] theorem leave_n : ctx.leave.n = ctx.n := rfl

theorem push_ok_fields {cap : Capture} {c2 : Context}
    (h : ctx.push cap = .ok c2) :
    c2.callstack = ctx.callstack ∧ c2.levels = ctx.levels ∧
      c2.config = ctx.config ∧ c2.text = ctx.text ∧ c2.pat = ctx.pat ∧
      c2.at_ = ctx.at_ ∧ c2.n = ctx.n ∧ c2.groups = ctx.groups ∧
      c2.namedGroups = ctx.namedGroups ∧ c2.isret = ctx.isret ∧
      c2.ret = ctx.ret ∧ c2.locals = ctx.locals ∧ c2.scopes = ctx.scopes := by
  unfold Context.push at h
  split_ifs at h <;> cases h <;>
    exact ⟨rfl, rfl, rfl, rfl, rfl, rfl, rfl, rfl, rfl, rfl, rfl, rfl, rfl⟩

theorem endCap_ok_fields {b : Bool} {c2 : Context}
    (h : ctx.endCap b = .ok c2) :
    c2.callstack = ctx.callstack ∧ c2.levels = ctx.levels ∧
      c2.config = ctx.config ∧ c2.text = ctx.text ∧ c2.pat = ctx.pat ∧
      c2.at_ = ctx.at_ ∧ c2.n = ctx.n ∧ c2.groups = ctx.groups ∧
      c2.namedGroups = ctx.namedGroups ∧ c2.isret = ctx.isret ∧
      c2.ret = ctx.ret ∧ c2.locals = ctx.locals ∧ c2.scopes = ctx.scopes := by
  unfold Context.endCap at h
  split_ifs at h
  · cases h
    exact ⟨rfl, rfl, rfl, rfl, rfl, rfl, rfl, rfl, rfl, rfl, rfl, rfl, rfl⟩
  · cases h
    exact ⟨rfl, rfl, rfl, rfl, rfl, rfl, rfl, rfl, rfl, rfl, rfl, rfl, rfl⟩
  · dsimp only at h
    split at h
    · cases h
    · split at h
      · cases h
      · have hp := push_ok_fields _ h
        exact hp

end FieldLemmas

/-- The skip loop only consumes text: the bookkeeping fields survive. -/
theorem skipLoop_preserves (k : Nat) (ctx : Context) :
    (skipLoop k ctx).1.callstack = ctx.callstack ∧
      (skipLoop k ctx).1.levels = ctx.levels ∧
      (skipLoop k ctx).1.config = ctx.config ∧
      (skipLoop k ctx).1.text = ctx.text ∧
      (skipLoop k ctx).1.pat = ctx.pat := by
  induction k generalizing ctx with
  | zero => exact ⟨rfl, rfl, rfl, rfl, rfl⟩
  | succ k ih =>
    unfold skipLoop
    dsimp only
    split_ifs
    · exact ⟨rfl, rfl, rfl, rfl, rfl⟩
    · have h := ih (ctx.consume ctx.readRune.2)
      simpa using h

/-- A pattern body never touches the callstack, the depth counter, the
configuration, the subject text or the current pattern: only the engine
helpers `call` / `execute` / `returns` do. -/
theorem matchBody_preserves (p : Pattern) (ctx : Context) :
    (matchBody p ctx).1.callstack = ctx.callstack ∧
      (matchBody p ctx).1.levels = ctx.levels ∧
      (matchBody p ctx).1.config = ctx.config ∧
      (matchBody p ctx).1.text = ctx.text ∧
      (matchBody p ctx).1.pat = ctx.pat := by
  cases p
  case skip k => exact skipLoop_preserves k ctx
  all_goals (
    unfold matchBody
    dsimp only [Context.justReturned]
    repeat' split
    all_goals
      first
        | exact ⟨rfl, rfl, rfl, rfl, rfl⟩
        | (rename_i heq
           have e := endCap_ok_fields _ heq
           obtain ⟨e1, e2, e3, e4, e5, _⟩ := e
           refine ⟨?_, ?_, ?_, ?_, ?_⟩ <;> simp [e1, e2, e3, e4, e5])
        | (rename_i heq
           have e := push_ok_fields _ heq
           obtain ⟨e1, e2, e3, e4, e5, _⟩ := e
           refine ⟨?_, ?_, ?_, ?_, ?_⟩ <;> simp [e1, e2, e3, e4, e5])
        | (refine ⟨?_, ?_, ?_, ?_, ?_⟩ <;> simp))

/-- C1.  `context.returns` with a non-empty callstack pops the top frame
and restores its saved `pat`, `at`, `n`, `locals`, `levels`, `groups`
and `namedGroups`; the child's groups are appended and its named groups
merged (child overwriting, i.e. looked up first) exactly when the child
returned ok; with an empty callstack it clears `pat`, halting the run.
Consequently, after a `call` whose child finally fails, the caller
resumes with cursor, consumed count, locals and groups exactly as at the
moment of the call. -/
theorem c1_returns_restores_frames (rv : ReturnValues) (ctx : Context) :
    (∀ f rest, ctx.callstack = f :: rest → ctx.levels ≠ 0 →
      Context.returns rv ctx = .ok
        { ctx with
          isret := true
          ret := rv
          callstack := rest
          pat := f.pat
          at_ := f.at_
          n := f.n
          locals := f.locals
          levels := f.levels
          groups := if rv.ok then f.groups ++ rv.groups else f.groups
          namedGroups :=
            if rv.ok then rv.namedGroups ++ f.namedGroups
            else f.namedGroups }) ∧
    (ctx.callstack = [] →
      Context.returns rv ctx =
        .ok { ctx with isret := true, ret := rv, pat := none }) ∧
    (∀ callee ctx1 ctx2, Context.call callee ctx = .ok ctx1 →
      ctx2.callstack = ctx1.callstack → ctx2.levels ≠ 0 → rv.ok = false →
      ∃ ctx3, Context.returns rv ctx2 = .ok ctx3 ∧
        ctx3.pat = ctx.pat ∧ ctx3.at_ = ctx.at_ ∧ ctx3.n = ctx.n ∧
        ctx3.locals = ctx.locals ∧ ctx3.groups = ctx.groups ∧
        ctx3.namedGroups = ctx.namedGroups ∧ ctx3.levels = ctx.levels ∧
        ctx3.callstack = ctx.callstack) := by
  refine ⟨?_, ?_, ?_⟩
  · intro f rest hcs hlev
    unfold Context.returns
    rw [hcs]
    dsimp only
    rw [if_neg hlev]
  · intro hcs
    unfold Context.returns
    rw [hcs]
  · intro callee ctx1 ctx2 hcall hcs2 hlev hok
    unfold Context.call at hcall
    split_ifs at hcall
    cases hcall
    unfold Context.returns
    rw [hcs2]
    dsimp only
    rw [if_neg hlev]
    refine ⟨_, rfl, rfl, rfl, rfl, rfl, ?_, ?_, rfl, rfl⟩ <;> simp [hok]

/-- Witness inputs for the claim theorems: a frame and two small
contexts. -/
def frameW : StackFrame :=
  { pat := none
    at_ := 0
    n := 0
    locals := {}
    levels := 0
    groups := []
    namedGroups := [] }

def ctxW : Context := Context.reset (.boolean true) [] defaultConfig

def ctxWdeep : Context :=
  { ctxW with callstack := [frameW], levels := 1 }

theorem c1_returns_restores_frames_witness :
    ctxWdeep.callstack = [frameW] ∧ ctxWdeep.levels ≠ 0 ∧
      Context.returns {} ctxWdeep = .ok
        { ctxWdeep with
          isret := true
          ret := {}
          callstack := []
          pat := frameW.pat
          at_ := frameW.at_
          n := frameW.n
          locals := frameW.locals
          levels := frameW.levels
          groups :=
            if ReturnValues.ok {} then frameW.groups ++ ReturnValues.groups {}
            else frameW.groups
          namedGroups :=
            if ReturnValues.ok {} then
              ReturnValues.namedGroups {} ++ frameW.namedGroups
            else frameW.namedGroups } :=
  ⟨rfl, by decide,
    (c1_returns_restores_frames {} ctxWdeep).1 frameW [] rfl (by decide)⟩

/-- C3.  `context.call` fails with `callstackOverflow` exactly when the
configured limit is positive and the depth counter has reached it;
`context.execute` fails with `executeWhenConsumed` exactly when the
current frame has consumed bytes since its last call point, is subject
to the same overflow check (after the `n = 0` check), and on success
pushes no frame while still incrementing the depth counter. -/
theorem c3_call_execute_errors (callee : Pattern) (ctx : Context) :
    (Context.call callee ctx = .error .callstackOverflow ↔
      0 < ctx.config.callstackLimit ∧
        ctx.config.callstackLimit ≤ (ctx.levels : Int)) ∧
    (Context.execute callee ctx = .error .executeWhenConsumed ↔
      ctx.n ≠ 0) ∧
    (Context.execute callee ctx = .error .callstackOverflow ↔
      ctx.n = 0 ∧ 0 < ctx.config.callstackLimit ∧
        ctx.config.callstackLimit ≤ (ctx.levels : Int)) ∧
    (∀ c2, Context.execute callee ctx = .ok c2 →
      c2.callstack = ctx.callstack ∧ c2.levels = ctx.levels + 1) := by
  refine ⟨?_, ?_, ?_, ?_⟩
  · unfold Context.call
    split_ifs with h <;> simp [h]
  · unfold Context.execute
    split_ifs with h1 h2 <;> simp_all
  · unfold Context.execute
    split_ifs with h1 h2 <;> simp_all
  · intro c2 h
    unfold Context.execute at h
    split_ifs at h
    cases h
    exact ⟨rfl, rfl⟩

def ctxWfull : Context :=
  { ctxW with
    config := { defaultConfig with callstackLimit := 1 }
    levels := 1 }

/-- Extract the context of a successful engine operation, with a
fallback. -/
def exceptOkD (d : Context) : Except PegError Context → Context
  | .ok c => c
  | .error _ => d

def ctxWexec : Context := exceptOkD ctxW (Context.execute (.boolean true) ctxW)

theorem c3_call_execute_errors_witness :
    ((Context.execute (.boolean true) { ctxW with n := 3 } =
        .error .executeWhenConsumed) ↔
      ({ ctxW with n := 3 } : Context).n ≠ 0) ∧
      (Context.execute (.boolean true) ctxWfull = .error .callstackOverflow ↔
        ctxWfull.n = 0 ∧ 0 < ctxWfull.config.callstackLimit ∧
          ctxWfull.config.callstackLimit ≤ (ctxWfull.levels : Int)) ∧
      (ctxWexec.callstack = ctxW.callstack ∧
        ctxWexec.levels = ctxW.levels + 1) :=
  ⟨(c3_call_execute_errors (.boolean true) { ctxW with n := 3 }).2.1,
    (c3_call_execute_errors (.boolean true) ctxWfull).2.2.1,
    (c3_call_execute_errors (.boolean true) ctxW).2.2.2 ctxWexec (by rfl)⟩

theorem readNext_one (ctx : Context) :
    ctx.readNext 1 = (ctx.text[ctx.at_]?).toList := by
  unfold Context.readNext
  rw [List.take_one, List.head?_drop]

theorem readPrev_one (ctx : Context) (h0 : 1 ≤ ctx.at_) :
    ctx.readPrev 1 = (ctx.text[ctx.at_ - 1]?).toList := by
  unfold Context.readPrev
  rw [if_neg (by omega), List.drop_take,
    show ctx.at_ - (ctx.at_ - 1) = 1 by omega, List.take_one, List.head?_drop]

theorem readPrev_one_zero (ctx : Context) (h0 : ctx.at_ = 0) :
    ctx.readPrev 1 = [] := by
  unfold Context.readPrev
  rw [if_pos (by omega), h0, List.take_zero]

/-- The claim's byte-level start-of-line condition. -/
def solSpec (ctx : Context) : Prop :=
  ctx.at_ = 0 ∨ ctx.text[ctx.at_ - 1]? = some 10 ∨
    (ctx.text[ctx.at_ - 1]? = some 13 ∧ ctx.text[ctx.at_]? ≠ some 10)

/-- The claim's byte-level end-of-line condition. -/
def eolSpec (ctx : Context) : Prop :=
  ctx.at_ = ctx.text.length ∨ ctx.text[ctx.at_]? = some 13 ∨
    (ctx.text[ctx.at_]? = some 10 ∧
      ¬(1 ≤ ctx.at_ ∧ ctx.text[ctx.at_ - 1]? = some 13))

theorem toList_eq_singleton_iff (o : Option Byte) (x : Byte) :
    o.toList = [x] ↔ o = some x := by
  cases o <;> simp [Option.toList]

instance (ctx : Context) : Decidable (solSpec ctx) := by
  unfold solSpec
  infer_instance

instance (ctx : Context) : Decidable (eolSpec ctx) := by
  unfold eolSpec
  infer_instance

/-- C6.  With the cursor inside the text, `SOL` predicates true exactly
when the offset is 0, the byte before the cursor is LF, or it is CR not
followed by LF; `EOL` predicates true exactly at the end of input, when
the next byte is CR, or when it is LF not preceded by CR; both leave the
context untouched and report zero consumed bytes. -/
theorem c6_line_anchors (ctx : Context) (h : ctx.at_ ≤ ctx.text.length) :
    matchBody SOL ctx = (ctx, .ret (predicatesRV ctx (decide (solSpec ctx)))) ∧
      matchBody EOL ctx =
        (ctx, .ret (predicatesRV ctx (decide (eolSpec ctx)))) ∧
      (predicatesRV ctx (decide (solSpec ctx))).n = 0 ∧
      (predicatesRV ctx (decide (eolSpec ctx))).n = 0 := by
  refine ⟨?_, ?_, rfl, rfl⟩
  · unfold SOL matchBody
    dsimp only
    rw [if_pos rfl]
    rcases Nat.eq_zero_or_pos ctx.at_ with h0 | h0
    · rw [readPrev_one_zero ctx h0, if_pos rfl]
      have : solSpec ctx := Or.inl h0
      simp [this]
    · have hpv := readPrev_one ctx h0
      have hnx := readNext_one ctx
      have hlt : ctx.at_ - 1 < ctx.text.length := by omega
      have hb : ctx.text[ctx.at_ - 1]? = some (ctx.text[ctx.at_ - 1]) :=
        List.getElem?_eq_getElem hlt
      rw [hpv, hnx, hb]
      rw [if_neg (by simp [Option.toList])]
      have hiff : ((some (ctx.text[ctx.at_ - 1])).toList = [10] ∨
          ((some (ctx.text[ctx.at_ - 1])).toList = [13] ∧
            (ctx.text[ctx.at_]?).toList ≠ [10])) ↔ solSpec ctx := by
        unfold solSpec
        rw [hb]
        have hne : ¬ctx.at_ = 0 := by omega
        simp [toList_eq_singleton_iff, hne]
      rw [decide_eq_decide.mpr hiff]
  · unfold EOL matchBody
    dsimp only
    rw [if_neg (by decide)]
    rcases Nat.lt_or_ge ctx.at_ ctx.text.length with h1 | h1
    · have hnx := readNext_one ctx
      have hb : ctx.text[ctx.at_]? = some (ctx.text[ctx.at_]) :=
        List.getElem?_eq_getElem h1
      rw [hnx, hb]
      rw [if_neg (by simp [Option.toList])]
      have hiff : ((some (ctx.text[ctx.at_])).toList = [13] ∨
          ((some (ctx.text[ctx.at_])).toList = [10] ∧
            ctx.readPrev 1 ≠ [13])) ↔ eolSpec ctx := by
        unfold eolSpec
        rw [hb]
        have hne : ¬ctx.at_ = ctx.text.length := by omega
        rcases Nat.eq_zero_or_pos ctx.at_ with h0 | h0
        · rw [readPrev_one_zero ctx h0]
          simp [toList_eq_singleton_iff, h0,
            show ¬(0 : Nat) = ctx.text.length by omega]
        · rw [readPrev_one ctx h0]
          have hlt : ctx.at_ - 1 < ctx.text.length := by omega
          have hb2 : ctx.text[ctx.at_ - 1]? = some (ctx.text[ctx.at_ - 1]) :=
            List.getElem?_eq_getElem hlt
          have h0' : 1 ≤ ctx.at_ := h0
          rw [hb2]
          simp [toList_eq_singleton_iff, hne, h0']
      rw [decide_eq_decide.mpr hiff]
    · have hend : ctx.at_ = ctx.text.length := by omega
      have hnone : ctx.text[ctx.at_]? = none := by
        rw [List.getElem?_eq_none_iff]
        omega
      rw [readNext_one ctx, hnone,
        show (none : Option Byte).toList = [] from rfl, if_pos rfl]
      have : eolSpec ctx := Or.inl hend
      simp [this]

theorem c6_line_anchors_witness :
    ({ ctxW with text := [13, 10] } : Context).at_ ≤
        ([13, 10] : List Byte).length ∧
      matchBody EOL { ctxW with text := [13, 10] } =
        ({ ctxW with text := [13, 10] }, .ret
          (predicatesRV { ctxW with text := [13, 10] }
            (decide (eolSpec { ctxW with text := [13, 10] })))) :=
  ⟨by decide, (c6_line_anchors { ctxW with text := [13, 10] } (by decide)).2.1⟩

/-- Search an ordered list of named-group maps for the first binding of
`name` (the claim's wording: current frame first, then the callstack
from top to bottom). -/
def lookupChain (maps : List (List (String × List Byte)))
    (name : String) : Option (List Byte) :=
  match maps with
  | [] => none
  | m :: rest =>
    match m.lookup name with
    | some g => some g
    | none => lookupChain rest name

/-- Search an ordered list of anonymous-group lists for the most recent
group of the first non-empty list. -/
def lastGroupChain : List (List (List Byte)) → Option (List Byte)
  | [] => none
  | gs :: rest =>
    match gs.getLast? with
    | some g => some g
    | none => lastGroupChain rest

theorem goNamed_eq_lookupChain (name : String) (fs : List StackFrame) :
    Context.refer.goNamed name fs =
      (lookupChain (fs.map StackFrame.namedGroups) name).getD [] := by
  induction fs with
  | nil => rfl
  | cons f rest ih =>
    unfold Context.refer.goNamed lookupChain
    dsimp only [List.map]
    cases f.namedGroups.lookup name <;> simp [ih, lookupChain]

theorem lastGroupChain_cons_nil (rest : List (List (List Byte))) :
    lastGroupChain ([] :: rest) = lastGroupChain rest := rfl

theorem lastGroupChain_cons_some {gs : List (List Byte)} {g : List Byte}
    (rest : List (List (List Byte))) (h : gs.getLast? = some g) :
    lastGroupChain (gs :: rest) = some g := by
  unfold lastGroupChain
  rw [h]

theorem goAnon_eq_lastGroupChain (fs : List StackFrame) :
    Context.refer.goAnon fs =
      (lastGroupChain (fs.map StackFrame.groups)).getD [] := by
  induction fs with
  | nil => rfl
  | cons f rest ih =>
    unfold Context.refer.goAnon
    dsimp only [List.map]
    rcases hl : f.groups.getLast? with _ | g
    · have hemp : f.groups = [] := by
        cases hf : f.groups
        · rfl
        · rw [hf] at hl
          simp [List.getLast?_eq_getLast] at hl
      rw [if_neg (by simp [hemp]), ih, hemp, lastGroupChain_cons_nil]
    · have hne : f.groups ≠ [] := by
        intro hf
        rw [hf] at hl
        cases hl
      rw [if_pos hne, List.getLastD_eq_getLast?, hl,
        lastGroupChain_cons_some _ hl]

/-- C7.  `Ref(name)` resolves the referenced text through the current
frame's named groups and then the callstack top to bottom (for the empty
name, the most recent anonymous group, searched the same way), with the
empty string when nothing is bound; it then consumes exactly the
referenced text when it is a prefix of the input at the cursor, and
predicates false otherwise.  A name never bound therefore matches
consuming zero bytes. -/
theorem c7_refer_resolution (name : String) (ctx : Context)
    (hg : ctx.config.disableGrouping = false) :
    (name ≠ "" → ctx.refer name =
      (lookupChain
        (ctx.namedGroups :: ctx.callstack.map StackFrame.namedGroups)
        name).getD []) ∧
    (name = "" → ctx.refer name =
      (lastGroupChain
        (ctx.groups :: ctx.callstack.map StackFrame.groups)).getD []) ∧
    (∀ t, t = ctx.refer name →
      matchBody (.textRefered name) ctx =
        (if t <+: ctx.text.drop ctx.at_ then
          (ctx.consume t.length, .ret (commitRV (ctx.consume t.length)))
        else (ctx, .ret (predicatesRV ctx false)))) ∧
    (name ≠ "" →
      lookupChain
        (ctx.namedGroups :: ctx.callstack.map StackFrame.namedGroups)
        name = none →
      ctx.n = 0 →
      matchBody (.textRefered name) ctx =
        (ctx, .ret (predicatesRV ctx true))) := by
  have hrefN : name ≠ "" → ctx.refer name =
      (lookupChain
        (ctx.namedGroups :: ctx.callstack.map StackFrame.namedGroups)
        name).getD [] := by
    intro hn
    unfold Context.refer
    rw [if_neg (by rw [hg]; simp), if_pos hn]
    unfold lookupChain
    cases ctx.namedGroups.lookup name
    · dsimp only
      exact goNamed_eq_lookupChain name ctx.callstack
    · rfl
  have hbody : ∀ t, t = ctx.refer name →
      matchBody (.textRefered name) ctx =
        (if t <+: ctx.text.drop ctx.at_ then
          (ctx.consume t.length, .ret (commitRV (ctx.consume t.length)))
        else (ctx, .ret (predicatesRV ctx false))) := by
    intro t ht
    unfold matchBody
    dsimp only
    rw [← ht]
    by_cases hp : t <+: ctx.text.drop ctx.at_
    · rw [if_pos hp]
      have : ctx.readNext t.length = t :=
        (List.prefix_iff_eq_take.mp hp).symm
      rw [if_pos this]
    · rw [if_neg hp]
      have : ¬ctx.readNext t.length = t := by
        intro hq
        exact hp (List.prefix_iff_eq_take.mpr hq.symm)
      rw [if_neg this]
  refine ⟨hrefN, ?_, hbody, ?_⟩
  · intro hn
    unfold Context.refer
    rw [if_neg (by rw [hg]; simp), if_neg (by simp [hn])]
    rcases hgz : ctx.groups.getLast? with _ | g
    · have hemp : ctx.groups = [] := by
        cases hf : ctx.groups
        · rfl
        · rw [hf] at hgz
          simp [List.getLast?_eq_getLast] at hgz
      rw [if_neg (by simp [hemp]), goAnon_eq_lastGroupChain, hemp,
        lastGroupChain_cons_nil]
    · have hne : ctx.groups ≠ [] := by
        intro hf
        rw [hf] at hgz
        cases hgz
      rw [if_pos hne, List.getLastD_eq_getLast?, hgz,
        lastGroupChain_cons_some _ hgz]
  · intro hn hnone hzero
    have hempty : ctx.refer name = [] := by
      rw [hrefN hn, hnone]
      rfl
    rw [hbody [] hempty.symm, if_pos List.nil_prefix]
    show (ctx, Yield.ret (commitRV ctx)) = (ctx, Yield.ret (predicatesRV ctx true))
    unfold commitRV predicatesRV
    rw [hzero]

theorem c7_refer_resolution_witness :
    ctxW.config.disableGrouping = false ∧
      matchBody (.textRefered "missing") ctxW =
        (ctxW, .ret (predicatesRV ctxW true)) :=
  ⟨rfl, (c7_refer_resolution "missing" ctxW rfl).2.2.2
    (by decide) rfl rfl⟩

/-- C8.  Resumed after its child, the injector applies `fn` to exactly
the first `ret.n` bytes of the input at the cursor: on `(n_accept,
true)` it consumes `n_accept` (the claim assumes `n_accept ≤ ret.n`) and
commits; on `false`, or when the child failed, it predicates false
consuming nothing. -/
theorem c8_injector (fn : List Byte → Nat × Bool) (q : Pattern)
    (ctx : Context) (hr : ctx.isret = true) :
    (ctx.ret.ok = true → (fn (ctx.readNext ctx.ret.n)).1 ≤ ctx.ret.n →
      matchBody (.injector fn q) ctx =
        (if (fn (ctx.readNext ctx.ret.n)).2 then
          (({ ctx with isret := false } : Context).consume
              (fn (ctx.readNext ctx.ret.n)).1,
            .ret (commitRV (({ ctx with isret := false } : Context).consume
              (fn (ctx.readNext ctx.ret.n)).1)))
        else ({ ctx with isret := false },
          .ret (predicatesRV ctx false)))) ∧
    (ctx.ret.ok = false →
      matchBody (.injector fn q) ctx =
        ({ ctx with isret := false }, .ret (predicatesRV ctx false))) ∧
    ctx.readNext ctx.ret.n = (ctx.text.drop ctx.at_).take ctx.ret.n ∧
    (predicatesRV ctx false).n = 0 := by
  refine ⟨?_, ?_, rfl, rfl⟩
  · intro hok _
    unfold matchBody Context.justReturned
    dsimp only
    rw [if_neg (by rw [hr]; simp), if_pos (by exact hok)]
    by_cases h2 : (fn (ctx.readNext ctx.ret.n)).2
    · rw [if_pos h2, if_pos (by simpa [Context.readNext] using h2)]
      rfl
    · rw [if_neg h2, if_neg (by simpa [Context.readNext] using h2)]
      rfl
  · intro hok
    unfold matchBody Context.justReturned
    dsimp only
    rw [if_neg (by rw [hr]; simp), if_neg (by simp [hok])]
    rfl

/-- A truncating injector and a context freshly resumed from a
successful child, for the C8 witness. -/
def fnW : List Byte → Nat × Bool := fun s => (s.length, true)

def ctxWret : Context :=
  { ctxW with
    text := [97, 98]
    isret := true
    ret := { ok := true, n := 1, groups := [], namedGroups := [] } }

theorem c8_injector_witness :
    ctxWret.isret = true ∧ ctxWret.ret.ok = true ∧
      (fnW (ctxWret.readNext ctxWret.ret.n)).1 ≤ ctxWret.ret.n ∧
      matchBody (.injector fnW (.boolean true)) ctxWret =
        (if (fnW (ctxWret.readNext ctxWret.ret.n)).2 then
          (({ ctxWret with isret := false } : Context).consume
              (fnW (ctxWret.readNext ctxWret.ret.n)).1,
            .ret (commitRV
              (({ ctxWret with isret := false } : Context).consume
                (fnW (ctxWret.readNext ctxWret.ret.n)).1)))
        else ({ ctxWret with isret := false },
          .ret (predicatesRV ctxWret false))) :=
  ⟨rfl, rfl, by decide,
    (c8_injector fnW (.boolean true) ctxWret rfl).1 rfl (by decide)⟩

/-- C10.  `Config.Parse` forcibly clears the two flags
`DisableLineColumnCounting` and `DisableCapturing` before matching —
setting them in the configuration has no effect on `Parse` — while the
callstack limit, the repeat limit and `DisableGrouping` are passed to
the match as given. -/
theorem c10_parse_forces_flags (fuel : Nat) (cfg : Config) (pat : Pattern)
    (text : List Byte) (b1 b2 : Bool) :
    Config.Parse fuel
        { cfg with disableLineColumnCounting := b1, disableCapturing := b2 }
        pat text =
      Config.Parse fuel cfg pat text ∧
    Config.Parse fuel cfg pat text =
      (match Config.Match fuel
          { callstackLimit := cfg.callstackLimit
            repeatLimit := cfg.repeatLimit
            disableGrouping := cfg.disableGrouping
            disableLineColumnCounting := false
            disableCapturing := false } pat text with
        | none => none
        | some (.error e) => some (.error e)
        | some (.ok r) =>
          some (if r.ok = false then .error .dismatch
            else if r.n ≠ text.length then .error .notFullMatched
            else .ok r.captures)) :=
  ⟨rfl, rfl⟩

/-- C9.  `Parse` returns the top-level captures exactly when the run
raises no error, the pattern matches, and the matched byte count equals
the text length; otherwise it returns the run's own error, a dismatch
error when the pattern did not match, or a not-full-matched error on a
partial match. -/
theorem c9_parse_full_match (fuel : Nat) (cfg : Config) (pat : Pattern)
    (text : List Byte) :
    (∀ caps, Config.Parse fuel cfg pat text = some (.ok caps) ↔
      ∃ c, run fuel (Context.reset pat text
          { cfg with disableLineColumnCounting := false, disableCapturing := false }) = .done c ∧
        c.ret.ok = true ∧ c.ret.n = text.length ∧
        caps = (c.capstack.headD default).args) ∧
    (∀ e, run fuel (Context.reset pat text
        { cfg with disableLineColumnCounting := false, disableCapturing := false }) = .err e →
      Config.Parse fuel cfg pat text = some (.error e)) ∧
    (∀ c, run fuel (Context.reset pat text
        { cfg with disableLineColumnCounting := false, disableCapturing := false }) = .done c →
      c.ret.ok = false →
      Config.Parse fuel cfg pat text = some (.error .dismatch)) ∧
    (∀ c, run fuel (Context.reset pat text
        { cfg with disableLineColumnCounting := false, disableCapturing := false }) = .done c →
      c.ret.ok = true → c.ret.n ≠ text.length →
      Config.Parse fuel cfg pat text = some (.error .notFullMatched)) := by
  unfold Config.Parse Config.Match
  dsimp only
  cases hrun : run fuel (Context.reset pat text
      { cfg with disableLineColumnCounting := false, disableCapturing := false }) with
  | done c =>
    refine ⟨?_, ?_, ?_, ?_⟩
    · intro caps
      by_cases hok : c.ret.ok
      · by_cases hlen : c.ret.n = text.length
        · simp [hok, hlen]
          exact eq_comm
        · simp [hok, hlen]
      · simp [hok]
    · intro e he
      cases he
    · intro c2 hc2 hok
      cases hc2
      simp [hok]
    · intro c2 hc2 hok hlen
      cases hc2
      simp [hok, hlen]
  | err e =>
    refine ⟨?_, ?_, ?_, ?_⟩
    · intro caps
      simp
    · intro e2 he
      cases he
      simp
    · intro c2 hc2
      cases hc2
    · intro c2 hc2
      cases hc2
  | more c =>
    refine ⟨?_, ?_, ?_, ?_⟩
    · intro caps
      simp
    · intro e he
      cases he
    · intro c2 hc2
      cases hc2
    · intro c2 hc2
      cases hc2

/-- Extract the context of a finished run, with a fallback. -/
def outcomeCtxD (d : Context) : Outcome → Context
  | .done c => c
  | .err _ => d
  | .more c => c

def c9doneCtx : Context :=
  outcomeCtxD ctxW (run 20 (Context.reset (T [97]) [98]
    { defaultConfig with disableLineColumnCounting := false, disableCapturing := false }))

theorem c9_parse_full_match_witness :
    Config.Parse 20 defaultConfig (T [97]) [98] = some (.error .dismatch) :=
  (c9_parse_full_match 20 defaultConfig (T [97]) [98]).2.2.1 c9doneCtx
    (by rfl) (by rfl)

/-- C4.  `TS(S)` succeeds if and only if some element of `S` is a
prefix of the input at the cursor, and on success consumes exactly the
length of the longest such element (the empty string counting as a
prefix when it is in `S`): the prefix tree built from the sorted set
computes `longestPrefLen`, the length of the longest prefix of the
input among `S`. -/
theorem c4_textset_longest_match (S : List (List Byte)) (ctx : Context) :
    (matchBody (TS S) ctx =
      match longestPrefLen S (ctx.text.drop ctx.at_) with
      | some m => (ctx.consume m, .ret (commitRV (ctx.consume m)))
      | none => (ctx, .ret (predicatesRV ctx false))) ∧
    ((longestPrefLen S (ctx.text.drop ctx.at_)).isSome ↔
      ∃ s ∈ S, s <+: ctx.text.drop ctx.at_) ∧
    (∀ m, longestPrefLen S (ctx.text.drop ctx.at_) = some m →
      (∃ s ∈ S, s <+: ctx.text.drop ctx.at_ ∧ s.length = m) ∧
        ∀ s ∈ S, s <+: ctx.text.drop ctx.at_ → s.length ≤ m) := by
  have hperm : (sortLex S).Perm S := List.perm_insertionSort lexR S
  have hsorted : List.Sorted lexR (sortLex S) :=
    List.sorted_insertionSort lexR S
  refine ⟨?_, ?_, ?_⟩
  · unfold TS matchBody
    dsimp only
    rw [find_build_sorted (sortLex S) hsorted,
      longestPrefLen_perm hperm]
  · constructor
    · intro hsome
      rw [Option.isSome_iff_exists] at hsome
      obtain ⟨m, hm⟩ := hsome
      obtain ⟨⟨s, hs, hpre, _⟩, _⟩ := longestPrefLen_eq_some_iff.mp hm
      exact ⟨s, hs, hpre⟩
    · rintro ⟨s, hs, hpre⟩
      cases ho : longestPrefLen S (ctx.text.drop ctx.at_) with
      | none => exact absurd hpre (longestPrefLen_eq_none_iff.mp ho s hs)
      | some m => rfl
  · intro m hm
    exact longestPrefLen_eq_some_iff.mp hm

theorem c4_textset_longest_match_witness :
    (longestPrefLen [[97], [97, 98]]
        ((ctxW.text ++ [97, 98, 99]).drop ctxW.at_) = some 2) ∧
      ((∃ s ∈ [[97], [97, 98]],
          s <+: ({ ctxW with text := [97, 98, 99] } : Context).text.drop
            ({ ctxW with text := [97, 98, 99] } : Context).at_ ∧
          s.length = 2) ∧
        ∀ s ∈ ([[97], [97, 98]] : List (List Byte)),
          s <+: ({ ctxW with text := [97, 98, 99] } : Context).text.drop
            ({ ctxW with text := [97, 98, 99] } : Context).at_ →
          s.length ≤ 2) :=
  ⟨by decide,
    (c4_textset_longest_match [[97], [97, 98]]
      { ctxW with text := [97, 98, 99] }).2.2 2 (by decide)⟩

/-- Classification of one engine step: it pushes one frame onto the
callstack, keeps it, pops the top frame restoring its saved fields (the
group merge governed by the child's `ok`), or halts on an empty
callstack; configuration and text never change. -/
theorem step_shape {p : Pattern} {c c2 : Context}
    (h : step p c = .ok c2) :
    c2.config = c.config ∧ c2.text = c.text ∧
      ((∃ f, c2.callstack = f :: c.callstack) ∨
        c2.callstack = c.callstack ∨
        (∃ f rest, c.callstack = f :: rest ∧ c2.callstack = rest ∧
          c2.pat = f.pat ∧ c2.at_ = f.at_ ∧ c2.n = f.n ∧
          c2.locals = f.locals ∧ c2.levels = f.levels ∧
          c2.isret = true ∧
          c2.groups =
            (if c2.ret.ok then f.groups ++ c2.ret.groups else f.groups) ∧
          c2.namedGroups =
            (if c2.ret.ok then c2.ret.namedGroups ++ f.namedGroups
            else f.namedGroups)) ∨
        (c.callstack = [] ∧ c2.callstack = [] ∧ c2.pat = none)) := by
  obtain ⟨hcs, hlev, hcfg, htxt, hpat⟩ := matchBody_preserves p c
  unfold step applyYield at h
  rcases hmb : matchBody p c with ⟨cb, y⟩
  rw [hmb] at h hcs hcfg htxt
  dsimp only at h hcs hcfg htxt
  rcases y with q | q | rv | e
  · dsimp only at h
    unfold Context.call at h
    split_ifs at h
    cases h
    refine ⟨hcfg, htxt, Or.inl ⟨StackFrame.mk cb.pat cb.at_ cb.n cb.locals
      cb.levels cb.groups cb.namedGroups, ?_⟩⟩
    dsimp only
    rw [hcs]
  · dsimp only at h
    unfold Context.execute at h
    split_ifs at h
    cases h
    exact ⟨hcfg, htxt, Or.inr (Or.inl hcs)⟩
  · dsimp only at h
    unfold Context.returns at h
    rcases hbs : cb.callstack with _ | ⟨f, rest⟩ <;> rw [hbs] at h
    · cases h
      exact ⟨hcfg, htxt,
        Or.inr (Or.inr (Or.inr ⟨hcs.symm.trans hbs, rfl, rfl⟩))⟩
    · dsimp only at h
      by_cases hlev0 : cb.levels = 0
      · rw [if_pos hlev0] at h
        cases h
      · rw [if_neg hlev0] at h
        cases h
        refine ⟨hcfg, htxt, Or.inr (Or.inr (Or.inl
          ⟨f, rest, ?_, rfl, rfl, rfl, rfl, rfl, rfl, rfl, ?_, ?_⟩))⟩
        · rw [hbs] at hcs
          exact hcs.symm
        · cases hrv : rv.ok <;> simp [hrv]
        · cases hrv : rv.ok <;> simp [hrv]
  · cases h

/-- Run the engine until the callstack first shrinks back to `base`
frames (the state just after the matching pop), treating a halt above
`base` as stuck. -/
def runAbove (base : Nat) : Nat → Context → Option (Except PegError Context)
  | 0, _ => none
  | fuel + 1, c =>
    if c.callstack.length ≤ base then some (.ok c)
    else
      match c.pat with
      | none => none
      | some p =>
        match step p c with
        | .ok c2 => runAbove base fuel c2
        | .error e => some (.error e)

/-- When a run from a state whose callstack is `pre ++ fT :: stk` first
comes back to `stk.length` frames, it got there by popping `fT`: the
result is the pop-restored state of `fT`. -/
theorem runAbove_pop :
    ∀ (fuel : Nat) (c c2 : Context) (pre : List StackFrame)
      (fT : StackFrame) (stk : List StackFrame),
      c.callstack = pre ++ fT :: stk →
      runAbove stk.length fuel c = some (.ok c2) →
      c2.callstack = stk ∧ c2.pat = fT.pat ∧ c2.at_ = fT.at_ ∧
        c2.n = fT.n ∧ c2.locals = fT.locals ∧ c2.levels = fT.levels ∧
        c2.isret = true ∧
        c2.groups =
          (if c2.ret.ok then fT.groups ++ c2.ret.groups else fT.groups) ∧
        c2.namedGroups =
          (if c2.ret.ok then c2.ret.namedGroups ++ fT.namedGroups
          else fT.namedGroups) ∧
        c2.config = c.config ∧ c2.text = c.text := by
  intro fuel
  induction fuel with
  | zero =>
    intro c c2 pre fT stk hcs hrun
    cases hrun
  | succ fuel ih =>
    intro c c2 pre fT stk hcs hrun
    unfold runAbove at hrun
    rw [if_neg (by rw [hcs]; simp; omega)] at hrun
    rcases hp : c.pat with _ | p <;> rw [hp] at hrun <;> dsimp only at hrun
    · cases hrun
    · rcases hstep : step p c with e | c1 <;> rw [hstep] at hrun <;>
        dsimp only at hrun
      · cases hrun
      · obtain ⟨hcfg, htxt, hcase⟩ := step_shape hstep
        rcases hcase with ⟨f, hpush⟩ | hkeep | ⟨f, rest, htop, hpop,
            hpat2, hat2, hn2, hloc2, hlev2, hisret2, hgrp2, hng2⟩ | ⟨hemp, _, _⟩
        · have := ih c1 c2 (f :: pre) fT stk (by simp [hpush, hcs]) hrun
          exact ⟨this.1, this.2.1, this.2.2.1, this.2.2.2.1, this.2.2.2.2.1,
            this.2.2.2.2.2.1, this.2.2.2.2.2.2.1, this.2.2.2.2.2.2.2.1,
            this.2.2.2.2.2.2.2.2.1, this.2.2.2.2.2.2.2.2.2.1.trans hcfg,
            this.2.2.2.2.2.2.2.2.2.2.trans htxt⟩
        · have := ih c1 c2 pre fT stk (by rw [hkeep, hcs]) hrun
          exact ⟨this.1, this.2.1, this.2.2.1, this.2.2.2.1, this.2.2.2.2.1,
            this.2.2.2.2.2.1, this.2.2.2.2.2.2.1, this.2.2.2.2.2.2.2.1,
            this.2.2.2.2.2.2.2.2.1, this.2.2.2.2.2.2.2.2.2.1.trans hcfg,
            this.2.2.2.2.2.2.2.2.2.2.trans htxt⟩
        · rw [hcs] at htop
          cases pre with
          | nil =>
            rw [List.nil_append] at htop
            injection htop with hf hrest
            subst hf
            subst hrest
            cases fuel with
            | zero => cases hrun
            | succ fuel2 =>
              unfold runAbove at hrun
              rw [if_pos (by rw [hpop])] at hrun
              cases hrun
              exact ⟨hpop, hpat2, hat2, hn2, hloc2, hlev2, hisret2,
                hgrp2, hng2, hcfg, htxt⟩
          | cons g pre2 =>
            rw [List.cons_append] at htop
            injection htop with hf hrest
            subst hf
            subst hrest
            have := ih c1 c2 pre2 fT stk hpop hrun
            exact ⟨this.1, this.2.1, this.2.2.1, this.2.2.2.1,
              this.2.2.2.2.1, this.2.2.2.2.2.1, this.2.2.2.2.2.2.1,
              this.2.2.2.2.2.2.2.1, this.2.2.2.2.2.2.2.2.1,
              this.2.2.2.2.2.2.2.2.2.1.trans hcfg,
              this.2.2.2.2.2.2.2.2.2.2.trans htxt⟩
        · rw [hcs] at hemp
          simp at hemp

/-- `context.returns` never touches the capture stack: in particular a
failing child's captures are not rolled back by the return protocol. -/
theorem returns_capstack {rv : ReturnValues} {x c2 : Context}
    (h : Context.returns rv x = .ok c2) : c2.capstack = x.capstack := by
  unfold Context.returns at h
  split at h
  · cases h
    rfl
  · split_ifs at h <;> cases h <;> rfl

/-- C2 (amended).  A predicator `Test(p)` / `Not(p)` calls its child
and, once the child's subtree has completed (the callstack is back to
the predicator's frame), resumes with the caller's cursor, consumed
count, pattern and locals restored; its own final yield reports
`n_bytes = 0` with `ok` copied (`Test`) or negated (`Not`), so it never
advances the cursor.  Groups are merged exactly on child success and
restored on child failure, but the parse-capture stack is whatever the
child left: `returns` does not roll captures back on failure. -/
theorem c2_predicators (isNot : Bool) (p : Pattern)
    (ctx ctx1 ctx2 : Context) (fuel : Nat)
    (hisret : ctx.isret = false)
    (hstep : step (.predicate isNot p) ctx = .ok ctx1)
    (hrun : runAbove ctx.callstack.length fuel ctx1 = some (.ok ctx2)) :
    ctx2.at_ = ctx.at_ ∧ ctx2.n = ctx.n ∧ ctx2.pat = ctx.pat ∧
      ctx2.locals = ctx.locals ∧ ctx2.callstack = ctx.callstack ∧
      ctx2.isret = true ∧
      (ctx2.ret.ok = true → ctx2.groups = ctx.groups ++ ctx2.ret.groups) ∧
      (ctx2.ret.ok = false → ctx2.groups = ctx.groups) ∧
      step (.predicate isNot p) ctx2 =
        Context.returns
          { ok := if isNot then !ctx2.ret.ok else ctx2.ret.ok
            n := 0
            groups := ctx2.groups
            namedGroups := ctx2.namedGroups }
          { ctx2 with isret := false } ∧
      (∀ rv c3, Context.returns rv { ctx2 with isret := false } = .ok c3 →
        c3.capstack = ctx2.capstack) := by
  have hbody : matchBody (.predicate isNot p) ctx =
      ({ ctx with isret := false }, .call p) := by
    unfold matchBody Context.justReturned
    dsimp only
    rw [if_pos (by rw [hisret])]
  rw [step, hbody] at hstep
  unfold applyYield at hstep
  dsimp only at hstep
  unfold Context.call at hstep
  split_ifs at hstep
  cases hstep
  have hpop := runAbove_pop fuel _ ctx2 []
    (StackFrame.mk ctx.pat ctx.at_ ctx.n ctx.locals ctx.levels ctx.groups
      ctx.namedGroups)
    ctx.callstack rfl hrun
  obtain ⟨hcs2, hpat2, hat2, hn2, hloc2, hlev2, hisret2, hgrp2, hng2, _, _⟩ :=
    hpop
  refine ⟨hat2, hn2, hpat2, hloc2, hcs2, hisret2, ?_, ?_, ?_, ?_⟩
  · intro hok
    rw [hgrp2, if_pos hok]
  · intro hok
    rw [hgrp2, if_neg (by rw [hok]; simp)]
  · unfold step matchBody Context.justReturned applyYield
    dsimp only
    rw [if_neg (by rw [hisret2]; simp)]
    dsimp only
    rfl
  · intro rv c3 hret
    exact returns_capstack hret

/-- Concrete C2 witness run: `Test(T "a")` on `"a"`. -/
def c2wCtx : Context := Context.reset (Test (T [97])) [97] defaultConfig

def c2wCtx1 : Context :=
  exceptOkD c2wCtx (step (.predicate false (T [97])) c2wCtx)

def c2wCtx2 : Context :=
  exceptOkD c2wCtx (Option.getD
    (runAbove c2wCtx.callstack.length 10 c2wCtx1) (.ok c2wCtx))

theorem c2_predicators_witness :
    c2wCtx.isret = false ∧
      step (.predicate false (T [97])) c2wCtx = .ok c2wCtx1 ∧
      runAbove c2wCtx.callstack.length 10 c2wCtx1 = some (.ok c2wCtx2) ∧
      c2wCtx2.at_ = c2wCtx.at_ ∧ c2wCtx2.n = c2wCtx.n ∧
      c2wCtx2.isret = true :=
  have h := c2_predicators false (T [97]) c2wCtx c2wCtx1 c2wCtx2 10
    rfl (by rfl) (by rfl)
  ⟨rfl, by rfl, by rfl, h.1, h.2.1, h.2.2.2.2.2.1⟩

/-- `Or(Not(CK 0 (T "a")), True)` on `"a"`: the inner `Not` fails (its
child matched and captured a token), yet the token stays on the capture
stack of the final state. -/
def c2cePat : Pattern := .orPred [Not (CK 0 (T [97])), .boolean true]

def c2ceCtx : Context :=
  outcomeCtxD ctxW (run 40 (Context.reset c2cePat [97] defaultConfig))

/-- C2 counterexample.  After the run the overall match succeeded with
zero bytes via the second branch — so the `Not` predicator failed — but
the pre-call capture stack (one empty bottom frame) was not restored:
the token captured inside the failed predication remains. -/
theorem c2_captures_not_restored :
    run 40 (Context.reset c2cePat [97] defaultConfig) = .done c2ceCtx ∧
      c2ceCtx.ret.ok = true ∧ c2ceCtx.ret.n = 0 ∧
      (Context.reset c2cePat [97] defaultConfig).capstack =
        [{ cons := none, args := [] }] ∧
      c2ceCtx.capstack.length = 1 ∧
      (c2ceCtx.capstack.headD default).cons = none ∧
      (match (c2ceCtx.capstack.headD default).args with
        | [Capture.token ty v _] => some (ty, v)
        | _ => none) = some ((0 : Int), [97]) :=
  ⟨rfl, rfl, rfl, rfl, rfl, rfl, rfl⟩

/-- Well-behaved patterns: every injector function accepts at most as
many bytes as it is given (the documented contract of `Inject`).  All
other constructors are unconstrained; the predicate is closed under
sub-patterns. -/
def GoodPat : Pattern → Prop
  | .predicate _ q => GoodPat q
  | .andPred pats => ∀ q ∈ pats, GoodPat q
  | .orPred pats => ∀ q ∈ pats, GoodPat q
  | .ifPat cond yes no => GoodPat cond ∧ GoodPat yes ∧ GoodPat no
  | .switchPat cs otherwise =>
    (∀ a b, (a, b) ∈ cs → GoodPat a ∧ GoodPat b) ∧ GoodPat otherwise
  | .sequence pats => ∀ q ∈ pats, GoodPat q
  | .alternative pats => ∀ q ∈ pats, GoodPat q
  | .anyRuneUntil _ q => GoodPat q
  | .qualifierAtLeast _ q => GoodPat q
  | .qualifierOptional q => GoodPat q
  | .qualifierRange _ _ q => GoodPat q
  | .grouping _ q => GoodPat q
  | .trigger _ q => GoodPat q
  | .injector fn q => (∀ s, (fn s).1 ≤ s.length) ∧ GoodPat q
  | .letPat vars q => (∀ s v, (s, v) ∈ vars → GoodPat v) ∧ GoodPat q
  | .captureVariable _ _ => True
  | .captureToken _ q => GoodPat q
  | .captureCons _ q => GoodPat q
  | .captureTerm _ q => GoodPat q
  | _ => True
termination_by p => sizeOf p
decreasing_by all_goals
  ((try (rename_i hmem
         have hlt := List.sizeOf_lt_of_mem hmem
         simp only [Prod.mk.sizeOf_spec] at hlt))
   first
     | omega
     | (simp_wf; omega)
     | simp_wf)

def OptGood : Option Pattern → Prop
  | none => True
  | some p => GoodPat p

/-- The saved cursor data of the callstack is consistent: each frame
recorded the cursor at its call point (`at - n` of the frame above),
with its own consumed count within bounds. -/
def linked : Nat → Nat → List StackFrame → Prop
  | _, _, [] => True
  | at_, n, f :: rest => f.at_ = at_ - n ∧ f.n ≤ f.at_ ∧ linked f.at_ f.n rest

def CapsGood (c : Context) : Prop :=
  c.capstack ≠ [] ∧ (c.capstack.headD default).cons = none

def ScopesGood (c : Context) : Prop :=
  ∀ ns ∈ c.scopes, ∀ q ∈ ns, GoodPat q.2

def FramesGood (c : Context) : Prop :=
  ∀ f ∈ c.callstack, OptGood f.pat

/-- The engine-state invariant of the claim, plus what is needed to
maintain it: cursor bounds, the return protocol's bound, the callstack
linkage, the capture-stack shape, and well-behavedness of every pattern
the run can still reach. -/
def Inv (c : Context) : Prop :=
  c.n ≤ c.at_ ∧ c.at_ ≤ c.text.length ∧
    (c.isret = true → c.pat = none ∨ c.at_ + c.ret.n ≤ c.text.length) ∧
    linked c.at_ c.n c.callstack ∧
    CapsGood c ∧ ScopesGood c ∧ FramesGood c ∧ OptGood c.pat

theorem linked_congr {a n a2 n2 : Nat} {stk : List StackFrame}
    (hd : a2 - n2 = a - n) (h : linked a n stk) : linked a2 n2 stk := by
  cases stk with
  | nil => trivial
  | cons f rest =>
    obtain ⟨h1, h2, h3⟩ := h
    exact ⟨hd ▸ h1, h2, h3⟩

theorem headD_append_singleton {l : List CaptureThunk} {x d : CaptureThunk}
    (h : l ≠ []) : (l ++ [x]).headD d = l.headD d := by
  cases l with
  | nil => exact absurd rfl h
  | cons a rest => rfl

theorem begin_capsGood {c : Context} (h : CapsGood c) (cons : NonTermCons) :
    CapsGood (c.begin cons) := by
  unfold Context.begin
  split_ifs
  · exact h
  · obtain ⟨h1, h2⟩ := h
    refine ⟨by simp, ?_⟩
    show ((c.capstack ++ [_]).headD default).cons = none
    rw [headD_append_singleton h1]
    exact h2

theorem push_shape_head {l : List CaptureThunk} {x : CaptureThunk}
    (h1 : l ≠ []) (h2 : (l.headD default).cons = none)
    (hx : x.cons = l.getLast!.cons) :
    (l.dropLast ++ [x]) ≠ [] ∧
      ((l.dropLast ++ [x]).headD default).cons = none := by
  constructor
  · simp
  · rcases l with _ | ⟨a, rest⟩
    · exact absurd rfl h1
    · cases rest with
      | nil =>
        have hg : ([a] : List CaptureThunk).getLast! = a := rfl
        rw [show (([a] : List CaptureThunk).dropLast ++ [x]) = [x] from rfl]
        show x.cons = none
        rw [hx, hg]
        exact h2
      | cons b r2 =>
        have hd : ((a :: b :: r2).dropLast ++ [x]).headD default = a := by
          simp [List.dropLast]
        rw [hd]
        exact h2

theorem dropLast_head {l : List CaptureThunk} (h2len : 2 ≤ l.length) :
    l.dropLast ≠ [] ∧ l.dropLast.headD default = l.headD default := by
  rcases l with _ | ⟨a, rest⟩
  · simp at h2len
  · cases rest with
    | nil => simp at h2len
    | cons b r2 =>
      exact ⟨by simp [List.dropLast], by simp [List.dropLast]⟩

theorem push_capsGood {c c2 : Context} {cap : Capture} (h : CapsGood c)
    (hp : c.push cap = .ok c2) : CapsGood c2 := by
  obtain ⟨h1, h2⟩ := h
  unfold Context.push at hp
  split_ifs at hp with hd hl
  · cases hp
    exact ⟨h1, h2⟩
  · cases hp
    exact push_shape_head h1 h2 rfl

theorem endCap_capsGood {c c2 : Context} {b : Bool} (h : CapsGood c)
    (hp : c.endCap b = .ok c2) : CapsGood c2 := by
  obtain ⟨h1, h2⟩ := h
  unfold Context.endCap at hp
  split_ifs at hp with hd hl hm
  · cases hp
    exact ⟨h1, h2⟩
  · dsimp only at hp
    cases hp
    have h2len : 2 ≤ c.capstack.length := by omega
    obtain ⟨hne, hhead⟩ := dropLast_head h2len
    constructor
    · exact hne
    · show (c.capstack.dropLast.headD default).cons = none
      rw [hhead]
      exact h2
  · dsimp only at hp
    have h2len : 2 ≤ c.capstack.length := by omega
    obtain ⟨hne, hhead⟩ := dropLast_head h2len
    have h2b : (c.capstack.dropLast.headD default).cons = none := by
      rw [hhead]
      exact h2
    split at hp
    · cases hp
    · split at hp
      · cases hp
      · exact push_capsGood ⟨hne, h2b⟩ hp

theorem lookup_mem {ns : List (String × Pattern)} {name : String}
    {p : Pattern} (h : ns.lookup name = some p) : (name, p) ∈ ns := by
  induction ns with
  | nil => cases h
  | cons a rest ih =>
    cases a with
    | mk k v =>
      unfold List.lookup at h
      split at h
      · cases h
        rename_i hbk
        have hkn : name = k := beq_iff_eq.mp hbk
        subst hkn
        exact List.mem_cons_self _ _
      · exact List.mem_cons_of_mem _ (ih h)

theorem lookupVar_good {c : Context} {name : String} {q : Pattern}
    (hs : ScopesGood c) (h : c.lookupVar name = some q) : GoodPat q := by
  unfold Context.lookupVar at h
  have hmain : ∀ scopes : List (List (String × Pattern)),
      (∀ ns ∈ scopes, ∀ v ∈ ns, GoodPat v.2) →
      Context.lookupVar.go name scopes = some q → GoodPat q := by
    intro scopes
    induction scopes with
    | nil =>
      intro _ hx
      cases hx
    | cons ns rest ih =>
      intro hg hx
      unfold Context.lookupVar.go at hx
      rcases hl : ns.lookup name with _ | p
      · rw [hl] at hx
        exact ih (fun m hm => hg m (List.mem_cons_of_mem _ hm)) hx
      · rw [hl] at hx
        cases hx
        exact hg ns (List.mem_cons_self _ _) _ (lookup_mem hl)
  exact hmain c.scopes hs h

/-- What one pattern body guarantees, given a well-formed starting
state: cursor bounds are kept, the call-point offset `at - n` is
unchanged, the capture stack keeps its shape, scopes stay well-behaved,
callees are well-behaved, and a return reports at most the text that
lies beyond the call point. -/
def BodyProps (c cb : Context) (y : Yield) : Prop :=
  cb.n ≤ cb.at_ ∧ cb.at_ ≤ cb.text.length ∧
    cb.at_ - cb.n = c.at_ - c.n ∧
    CapsGood cb ∧ ScopesGood cb ∧
    (∀ q, y = .call q → GoodPat q) ∧
    (∀ q, y = .exec q → GoodPat q) ∧
    (∀ rv, y = .ret rv → cb.at_ - cb.n + rv.n ≤ cb.text.length)

theorem bp_of_err {c cb : Context} {e : PegError}
    (hn : cb.n ≤ cb.at_) (hat : cb.at_ ≤ cb.text.length)
    (hdiff : cb.at_ - cb.n = c.at_ - c.n)
    (hcaps : CapsGood cb) (hsc : ScopesGood cb) :
    BodyProps c cb (.err e) :=
  ⟨hn, hat, hdiff, hcaps, hsc, fun _ hq => (by cases hq),
    fun _ hq => (by cases hq), fun _ hq => (by cases hq)⟩

theorem bp_of_call {c cb : Context} {q : Pattern}
    (hn : cb.n ≤ cb.at_) (hat : cb.at_ ≤ cb.text.length)
    (hdiff : cb.at_ - cb.n = c.at_ - c.n)
    (hcaps : CapsGood cb) (hsc : ScopesGood cb) (hq : GoodPat q) :
    BodyProps c cb (.call q) :=
  ⟨hn, hat, hdiff, hcaps, hsc, fun _ he => (by cases he; exact hq),
    fun _ he => (by cases he), fun _ he => (by cases he)⟩

theorem bp_of_exec {c cb : Context} {q : Pattern}
    (hn : cb.n ≤ cb.at_) (hat : cb.at_ ≤ cb.text.length)
    (hdiff : cb.at_ - cb.n = c.at_ - c.n)
    (hcaps : CapsGood cb) (hsc : ScopesGood cb) (hq : GoodPat q) :
    BodyProps c cb (.exec q) :=
  ⟨hn, hat, hdiff, hcaps, hsc, fun _ he => (by cases he),
    fun _ he => (by cases he; exact hq), fun _ he => (by cases he)⟩

theorem bp_of_pred {c cb x : Context} {b : Bool}
    (hn : cb.n ≤ cb.at_) (hat : cb.at_ ≤ cb.text.length)
    (hdiff : cb.at_ - cb.n = c.at_ - c.n)
    (hcaps : CapsGood cb) (hsc : ScopesGood cb) :
    BodyProps c cb (.ret (predicatesRV x b)) :=
  ⟨hn, hat, hdiff, hcaps, hsc, fun _ he => (by cases he),
    fun _ he => (by cases he), fun _ he => by
      cases he
      show cb.at_ - cb.n + 0 ≤ cb.text.length
      omega⟩

theorem bp_of_commit {c cb : Context}
    (hn : cb.n ≤ cb.at_) (hat : cb.at_ ≤ cb.text.length)
    (hdiff : cb.at_ - cb.n = c.at_ - c.n)
    (hcaps : CapsGood cb) (hsc : ScopesGood cb) :
    BodyProps c cb (.ret (commitRV cb)) :=
  ⟨hn, hat, hdiff, hcaps, hsc, fun _ he => (by cases he),
    fun _ he => (by cases he), fun _ he => by
      cases he
      show cb.at_ - cb.n + cb.n ≤ cb.text.length
      omega⟩

theorem bp_of_fwd {c cb : Context} {rv : ReturnValues}
    (hn : cb.n ≤ cb.at_) (hat : cb.at_ ≤ cb.text.length)
    (hdiff : cb.at_ - cb.n = c.at_ - c.n)
    (hcaps : CapsGood cb) (hsc : ScopesGood cb)
    (hrv : c.at_ + rv.n ≤ c.text.length) (htxt : cb.text = c.text)
    (hnc : c.n ≤ c.at_) :
    BodyProps c cb (.ret rv) :=
  ⟨hn, hat, hdiff, hcaps, hsc, fun _ he => (by cases he),
    fun _ he => (by cases he), fun _ he => by
      cases he
      rw [hdiff, htxt]
      omega⟩

@[simp] theorem group_scopes (ctx : Context) (g : String) :
    (ctx.group g).scopes = ctx.scopes := by
  unfold Context.group
  split_ifs <;> rfl

@[simp] theorem begin_scopes (ctx : Context) (cons : NonTermCons) :
    (ctx.begin cons).scopes = ctx.scopes := by
  unfold Context.begin
  split_ifs <;> rfl

theorem capsGood_congr {a b : Context} (h : a.capstack = b.capstack)
    (hb : CapsGood b) : CapsGood a := by
  unfold CapsGood at hb ⊢
  rw [h]
  exact hb

theorem scopesGood_congr {a b : Context} (h : a.scopes = b.scopes)
    (hb : ScopesGood b) : ScopesGood a := by
  unfold ScopesGood at hb ⊢
  rw [h]
  exact hb

theorem readNext_length_le (c : Context) (k : Nat) :
    (c.readNext k).length ≤ c.text.length - c.at_ := by
  unfold Context.readNext
  simp

theorem isret_true_of_not_false {c : Context} (h : ¬c.isret = false) :
    c.isret = true := by
  cases hx : c.isret
  · exact absurd hx h
  · rfl

theorem skipLoop_facts : ∀ (k : Nat) (x : Context), x.n ≤ x.at_ →
    x.at_ ≤ x.text.length →
    ((skipLoop k x).1.n ≤ (skipLoop k x).1.at_ ∧
      (skipLoop k x).1.at_ ≤ (skipLoop k x).1.text.length ∧
      (skipLoop k x).1.at_ - (skipLoop k x).1.n = x.at_ - x.n ∧
      (skipLoop k x).1.capstack = x.capstack ∧
      (skipLoop k x).1.scopes = x.scopes ∧
      (∀ q, (skipLoop k x).2 ≠ .call q) ∧
      (∀ q, (skipLoop k x).2 ≠ .exec q) ∧
      (∀ rv, (skipLoop k x).2 = .ret rv →
        (skipLoop k x).1.at_ - (skipLoop k x).1.n + rv.n ≤
          (skipLoop k x).1.text.length)) := by
  intro k
  induction k with
  | zero =>
    intro x hn hat
    refine ⟨hn, hat, rfl, rfl, rfl, fun _ h => (by cases h),
      fun _ h => (by cases h), fun rv h => ?_⟩
    cases h
    show x.at_ - x.n + x.n ≤ x.text.length
    omega
  | succ k ih =>
    intro x hn hat
    unfold skipLoop
    dsimp only
    split_ifs with hsz
    · refine ⟨by simp [Context.consume]; omega,
        by simp [Context.consume]; omega,
        by simp [Context.consume]; omega, rfl, rfl,
        fun _ h => (by cases h), fun _ h => (by cases h), fun rv h => ?_⟩
      cases h
      show _ - _ + 0 ≤ _
      simp [Context.consume]
      omega
    · have hszle : x.readRune.2 ≤ x.text.length - x.at_ := by
        have := decodeRune_size_le (x.text.drop x.at_)
        unfold Context.readRune
        simpa using this
      have := ih (x.consume x.readRune.2)
        (by simp [Context.consume]; omega)
        (by simp [Context.consume]; omega)
      refine ⟨this.1, this.2.1, ?_, this.2.2.2.1, this.2.2.2.2.1,
        this.2.2.2.2.2.1, this.2.2.2.2.2.2.1, ?_⟩
      · rw [this.2.2.1]
        simp [Context.consume]
        omega
      · intro rv h
        have h2 := this.2.2.2.2.2.2.2 rv h
        exact h2

theorem readRune_size_le (c : Context) :
    c.readRune.2 ≤ c.text.length - c.at_ := by
  unfold Context.readRune
  have := decodeRune_size_le (c.text.drop c.at_)
  simpa using this

/-- Every pattern body keeps the state well-formed and yields only into
well-behaved callees, returning at most the text beyond its call
point. -/
theorem body_props {c : Context} {p : Pattern} (hg : GoodPat p)
    (hn : c.n ≤ c.at_) (hat : c.at_ ≤ c.text.length)
    (hb : c.isret = true → c.at_ + c.ret.n ≤ c.text.length)
    (hcaps : CapsGood c) (hsc : ScopesGood c) :
    BodyProps c (matchBody p c).1 (matchBody p c).2 := by
  cases p with
  | boolean ok =>
    exact bp_of_pred hn hat rfl hcaps hsc
  | abort msg =>
    exact bp_of_err hn hat rfl hcaps hsc
  | lineAnchor ls =>
    unfold matchBody
    dsimp only
    split_ifs <;> exact bp_of_pred hn hat rfl hcaps hsc
  | eofPred =>
    exact bp_of_pred hn hat rfl hcaps hsc
  | predicate nt q =>
    unfold matchBody
    dsimp only [Context.justReturned]
    simp only [GoodPat] at hg
    split_ifs with hbret hnt <;> (try dsimp only) <;>
      first
        | exact bp_of_call hn hat rfl hcaps hsc hg
        | exact bp_of_pred hn hat rfl hcaps hsc
  | andPred pats =>
    unfold matchBody
    dsimp only [Context.justReturned]
    simp only [GoodPat] at hg
    split_ifs with h1 hbret hok h2 <;>
      first
        | exact bp_of_pred hn hat rfl hcaps hsc
        | exact bp_of_call hn hat rfl hcaps hsc (hg _ (List.get_mem _ _ _))
  | orPred pats =>
    unfold matchBody
    dsimp only [Context.justReturned]
    simp only [GoodPat] at hg
    split_ifs with h1 hbret hok h2 <;>
      first
        | exact bp_of_pred hn hat rfl hcaps hsc
        | exact bp_of_call hn hat rfl hcaps hsc (hg _ (List.get_mem _ _ _))
  | ifPat cond yes no =>
    unfold matchBody
    dsimp only [Context.justReturned]
    simp only [GoodPat] at hg
    split_ifs with hbret hok
    · exact bp_of_call hn hat rfl hcaps hsc hg.1
    · exact bp_of_exec hn hat rfl hcaps hsc hg.2.1
    · exact bp_of_exec hn hat rfl hcaps hsc hg.2.2
  | switchPat cs otherwise =>
    unfold matchBody
    dsimp only [Context.justReturned]
    simp only [GoodPat] at hg
    split_ifs with h1 hbret hok h2 <;>
      first
        | exact bp_of_call hn hat rfl hcaps hsc ((hg.1 _ _
            (by rw [Prod.mk.eta]; exact List.get_mem _ _ _)).1)
        | exact bp_of_exec hn hat rfl hcaps hsc ((hg.1 _ _
            (by rw [Prod.mk.eta]; exact List.get_mem _ _ _)).2)
        | exact bp_of_exec hn hat rfl hcaps hsc hg.2
  | text t =>
    unfold matchBody
    dsimp only
    split_ifs with heq
    · have hk : c.at_ + (c.readNext t.length).length ≤ c.text.length := by
        have := readNext_length_le c t.length
        omega
      apply bp_of_commit <;>
        first
          | exact capsGood_congr (by simp) hcaps
          | exact scopesGood_congr (by simp) hsc
          | ((try dsimp only [Context.consume]); omega)
    · exact bp_of_pred hn hat rfl hcaps hsc
  | backward t =>
    exact bp_of_pred hn hat rfl hcaps hsc
  | textSet sorted tree =>
    unfold matchBody
    dsimp only
    split
    · rename_i m hfind
      have hk : c.at_ + m ≤ c.text.length := by
        have h1 := tree.find_le (c.text.drop c.at_) m hfind
        simp only [List.length_drop] at h1
        omega
      apply bp_of_commit <;>
        first
          | exact capsGood_congr (by simp) hcaps
          | exact scopesGood_congr (by simp) hsc
          | ((try dsimp only [Context.consume]); omega)
    · exact bp_of_pred hn hat rfl hcaps hsc
  | textRefered grpname =>
    unfold matchBody
    dsimp only
    split_ifs with heq
    · have hk : c.at_ + (c.refer grpname).length ≤ c.text.length := by
        have h1 := readNext_length_le c (c.refer grpname).length
        rw [heq] at h1
        omega
      apply bp_of_commit <;>
        first
          | exact capsGood_congr (by simp) hcaps
          | exact scopesGood_congr (by simp) hsc
          | ((try dsimp only [Context.consume]); omega)
    · exact bp_of_pred hn hat rfl hcaps hsc
  | backwardRefered grpname =>
    exact bp_of_pred hn hat rfl hcaps hsc
  | sequence pats =>
    unfold matchBody
    dsimp only [Context.justReturned]
    simp only [GoodPat] at hg
    split_ifs with h1 hbret hok h2 <;>
      first
        | exact bp_of_pred hn hat rfl hcaps hsc
        | exact bp_of_commit hn hat rfl hcaps hsc
        | exact bp_of_call hn hat rfl hcaps hsc (hg _ (List.get_mem _ _ _))
        | (have hbn := hb (isret_true_of_not_false hbret)
           first
             | (apply bp_of_commit <;>
                 first
                   | exact capsGood_congr (by simp) hcaps
                   | exact scopesGood_congr (by simp) hsc
                   | ((try dsimp only [Context.consume]); omega))
             | (refine bp_of_call ?_ ?_ ?_ ?_ ?_ (hg _ (List.get_mem _ _ _)) <;>
                 first
                   | exact capsGood_congr (by simp) hcaps
                   | exact scopesGood_congr (by simp) hsc
                   | ((try dsimp only [Context.consume]); omega)))
  | alternative pats =>
    unfold matchBody
    dsimp only [Context.justReturned]
    simp only [GoodPat] at hg
    split_ifs with h1 hbret hlast hok h2 hlast2 <;>
      first
        | exact bp_of_pred hn hat rfl hcaps hsc
        | exact bp_of_call hn hat rfl hcaps hsc (hg _ (List.get_mem _ _ _))
        | exact bp_of_exec hn hat rfl hcaps hsc (hg _ (List.get_mem _ _ _))
        | (have hbn := hb (isret_true_of_not_false hbret)
           apply bp_of_commit <;>
             first
               | exact capsGood_congr (by simp) hcaps
               | exact scopesGood_congr (by simp) hsc
               | ((try dsimp only [Context.consume]); omega))
  | skip k =>
    obtain ⟨f1, f2, f3, f4, f5, f6, f7, f8⟩ := skipLoop_facts k c hn hat
    exact ⟨f1, f2, f3, capsGood_congr f4 hcaps, scopesGood_congr f5 hsc,
      fun q hq => absurd hq (f6 q), fun q hq => absurd hq (f7 q), f8⟩
  | anyRuneUntil without q =>
    unfold matchBody
    dsimp only [Context.justReturned]
    simp only [GoodPat] at hg
    have hsz := readRune_size_le ({ c with isret := false } : Context)
    dsimp only at hsz
    split_ifs with ha hbret hok hw hz hc2 <;>
      first
        | exact bp_of_err hn hat rfl hcaps hsc
        | exact bp_of_pred hn hat rfl hcaps hsc
        | exact bp_of_commit hn hat rfl hcaps hsc
        | exact bp_of_call hn hat rfl hcaps hsc hg
        | (have hbn := hb (isret_true_of_not_false hbret)
           first
             | (apply bp_of_commit <;>
                 first
                   | exact capsGood_congr (by simp) hcaps
                   | exact scopesGood_congr (by simp) hsc
                   | ((try dsimp only [Context.consume]); omega))
             | (apply bp_of_err <;>
                 first
                   | exact capsGood_congr (by simp) hcaps
                   | exact scopesGood_congr (by simp) hsc
                   | ((try dsimp only [Context.consume]); omega))
             | (refine bp_of_pred ?_ ?_ ?_ ?_ ?_ <;>
                 first
                   | exact capsGood_congr (by simp) hcaps
                   | exact scopesGood_congr (by simp) hsc
                   | ((try dsimp only [Context.consume]); omega))
             | (refine bp_of_call ?_ ?_ ?_ ?_ ?_ hg <;>
                 first
                   | exact capsGood_congr (by simp) hcaps
                   | exact scopesGood_congr (by simp) hsc
                   | ((try dsimp only [Context.consume]); omega)))
  | qualifierAtLeast nmin q =>
    unfold matchBody
    dsimp only [Context.justReturned]
    simp only [GoodPat] at hg
    split_ifs with ha hbret hok hmin hr2 <;>
      first
        | exact bp_of_err hn hat rfl hcaps hsc
        | exact bp_of_pred hn hat rfl hcaps hsc
        | exact bp_of_commit hn hat rfl hcaps hsc
        | exact bp_of_call hn hat rfl hcaps hsc hg
        | (have hbn := hb (isret_true_of_not_false hbret)
           first
             | (apply bp_of_err <;>
                 first
                   | exact capsGood_congr (by simp) hcaps
                   | exact scopesGood_congr (by simp) hsc
                   | ((try dsimp only [Context.consume]); omega))
             | (refine bp_of_call ?_ ?_ ?_ ?_ ?_ hg <;>
                 first
                   | exact capsGood_congr (by simp) hcaps
                   | exact scopesGood_congr (by simp) hsc
                   | ((try dsimp only [Context.consume]); omega)))
  | qualifierOptional q =>
    unfold matchBody
    dsimp only [Context.justReturned]
    simp only [GoodPat] at hg
    split_ifs with hbret hok <;>
      first
        | exact bp_of_pred hn hat rfl hcaps hsc
        | exact bp_of_call hn hat rfl hcaps hsc hg
        | (have hbn := hb (isret_true_of_not_false hbret)
           apply bp_of_commit <;>
             first
               | exact capsGood_congr (by simp) hcaps
               | exact scopesGood_congr (by simp) hsc
               | ((try dsimp only [Context.consume]); omega))
  | qualifierRange m nn q =>
    unfold matchBody
    dsimp only [Context.justReturned]
    simp only [GoodPat] at hg
    split_ifs with hlt ha hbret hok hmin hlt2 hr2 <;>
      first
        | exact bp_of_err hn hat rfl hcaps hsc
        | exact bp_of_pred hn hat rfl hcaps hsc
        | exact bp_of_commit hn hat rfl hcaps hsc
        | exact bp_of_call hn hat rfl hcaps hsc hg
        | (have hbn := hb (isret_true_of_not_false hbret)
           first
             | (apply bp_of_err <;>
                 first
                   | exact capsGood_congr (by simp) hcaps
                   | exact scopesGood_congr (by simp) hsc
                   | ((try dsimp only [Context.consume]); omega))
             | (apply bp_of_commit <;>
                 first
                   | exact capsGood_congr (by simp) hcaps
                   | exact scopesGood_congr (by simp) hsc
                   | ((try dsimp only [Context.consume]); omega))
             | (refine bp_of_call ?_ ?_ ?_ ?_ ?_ hg <;>
                 first
                   | exact capsGood_congr (by simp) hcaps
                   | exact scopesGood_congr (by simp) hsc
                   | ((try dsimp only [Context.consume]); omega)))
  | anyRune =>
    unfold matchBody
    dsimp only
    have hsz := readRune_size_le c
    split_ifs with hz
    · exact bp_of_pred hn hat rfl hcaps hsc
    · apply bp_of_commit <;>
        first
          | exact capsGood_congr (by simp) hcaps
          | exact scopesGood_congr (by simp) hsc
          | ((try dsimp only [Context.consume]); omega)
  | runeSet nt charset =>
    unfold matchBody
    dsimp only
    have hsz := readRune_size_le c
    rcases hrr : c.readRune with ⟨r, sz⟩
    rw [hrr] at hsz
    dsimp only at hsz
    split_ifs with hz
    · apply bp_of_commit <;>
        first
          | exact capsGood_congr (by simp) hcaps
          | exact scopesGood_congr (by simp) hsc
          | ((try dsimp only [Context.consume]); omega)
    · exact bp_of_pred hn hat rfl hcaps hsc
  | runeRange nt ranges =>
    unfold matchBody
    dsimp only
    have hsz := readRune_size_le c
    rcases hrr : c.readRune with ⟨r, sz⟩
    rw [hrr] at hsz
    dsimp only at hsz
    split_ifs with hz
    · apply bp_of_commit <;>
        first
          | exact capsGood_congr (by simp) hcaps
          | exact scopesGood_congr (by simp) hsc
          | ((try dsimp only [Context.consume]); omega)
    · exact bp_of_pred hn hat rfl hcaps hsc
  | grouping grpname q =>
    unfold matchBody
    dsimp only [Context.justReturned]
    simp only [GoodPat] at hg
    split_ifs with hbret hok <;>
      first
        | exact bp_of_pred hn hat rfl hcaps hsc
        | exact bp_of_call hn hat rfl hcaps hsc hg
        | (have hbn := hb (isret_true_of_not_false hbret)
           apply bp_of_commit <;>
             first
               | exact capsGood_congr (by simp) hcaps
               | exact scopesGood_congr (by simp) hsc
               | (simp only [group_at, group_n, group_text]
                  (try dsimp only [Context.consume])
                  omega))
  | trigger hook q =>
    unfold matchBody
    dsimp only [Context.justReturned]
    simp only [GoodPat] at hg
    split_ifs with hbret hok <;>
      first
        | exact bp_of_pred hn hat rfl hcaps hsc
        | exact bp_of_call hn hat rfl hcaps hsc hg
        | (have hbn := hb (isret_true_of_not_false hbret)
           (try split) <;>
             first
               | (apply bp_of_err <;>
                   first
                     | exact capsGood_congr (by simp) hcaps
                     | exact scopesGood_congr (by simp) hsc
                     | ((try dsimp only [Context.consume]); omega))
               | (apply bp_of_commit <;>
                   first
                     | exact capsGood_congr (by simp) hcaps
                     | exact scopesGood_congr (by simp) hsc
                     | ((try dsimp only [Context.consume]); omega)))
  | injector fn q =>
    unfold matchBody
    dsimp only [Context.justReturned]
    simp only [GoodPat] at hg
    have hres := hg.1 (Context.readNext
      (({ c with isret := false } : Context).ret.n)
      ({ c with isret := false } : Context))
    have hlen := readNext_length_le ({ c with isret := false } : Context)
      (({ c with isret := false } : Context).ret.n)
    dsimp only at hres hlen
    split_ifs with hbret hok hacc <;>
      first
        | exact bp_of_pred hn hat rfl hcaps hsc
        | exact bp_of_call hn hat rfl hcaps hsc hg.2
        | (apply bp_of_commit <;>
            first
              | exact capsGood_congr (by simp) hcaps
              | exact scopesGood_congr (by simp) hsc
              | ((try dsimp only [Context.consume]); omega))
  | letPat vars q =>
    unfold matchBody
    dsimp only [Context.justReturned]
    simp only [GoodPat] at hg
    split_ifs with hbret
    · refine bp_of_call hn hat rfl ?_ ?_ hg.2
      · exact capsGood_congr (by simp) hcaps
      · intro ns hns
        rcases List.mem_cons.mp hns with hv | hm
        · intro v hv2
          subst hv
          exact hg.1 v.1 v.2 (by rw [Prod.mk.eta]; exact hv2)
        · exact hsc ns hm
    · refine bp_of_fwd hn hat rfl ?_ ?_
        (hb (isret_true_of_not_false hbret)) rfl hn
      · exact capsGood_congr (by simp) hcaps
      · intro ns hns
        exact hsc ns (List.mem_of_mem_tail hns)
  | captureVariable varname capture =>
    unfold matchBody
    dsimp only [Context.justReturned]
    split_ifs with hbret hcap
    · split
      · exact bp_of_err hn hat rfl hcaps hsc
      · rename_i callee heq
        exact bp_of_exec hn hat rfl hcaps hsc (lookupVar_good hsc heq)
    · split
      · exact bp_of_err hn hat rfl hcaps hsc
      · rename_i callee heq
        dsimp only
        refine bp_of_call ?_ ?_ ?_ ?_ ?_ (lookupVar_good hsc heq)
        · rw [begin_n, begin_at]
          exact hn
        · rw [begin_at, begin_text]
          exact hat
        · rw [begin_at, begin_n]
        · refine begin_capsGood ?_ _
          exact hcaps
        · exact scopesGood_congr (by simp) hsc
    · split
      · exact bp_of_err hn hat rfl hcaps hsc
      · rename_i ctx2 heq
        dsimp only
        obtain ⟨e1, e2, e3, e4, e5, e6, e7, e8, e9, e10, e11, e12, e13⟩ :=
          endCap_ok_fields _ heq
        refine bp_of_fwd ?_ ?_ ?_ ?_ ?_
          (hb (isret_true_of_not_false hbret)) ?_ hn
        · rw [e7, e6]
          exact hn
        · rw [e6, e4]
          exact hat
        · rw [e6, e7]
        · refine endCap_capsGood ?_ heq
          exact hcaps
        · exact scopesGood_congr e13 hsc
        · exact e4
  | captureToken toktype q =>
    unfold matchBody
    dsimp only [Context.justReturned]
    simp only [GoodPat] at hg
    split_ifs with hbret hok
    · exact bp_of_call hn hat rfl hcaps hsc hg
    · exact bp_of_pred hn hat rfl hcaps hsc
    · have hbn := hb (isret_true_of_not_false hbret)
      split
      · apply bp_of_err <;>
          first
            | exact capsGood_congr (by simp) hcaps
            | exact scopesGood_congr (by simp) hsc
            | ((try dsimp only [Context.consume]); omega)
      · rename_i ctx2 heq
        obtain ⟨e1, e2, e3, e4, e5, e6, e7, e8, e9, e10, e11, e12, e13⟩ :=
          push_ok_fields _ heq
        refine bp_of_commit ?_ ?_ ?_ ?_ ?_
        · rw [e7, e6]
          dsimp only [Context.consume]
          omega
        · rw [e6, e4]
          dsimp only [Context.consume]
          omega
        · rw [e6, e7]
          dsimp only [Context.consume]
          omega
        · refine push_capsGood ?_ heq
          exact capsGood_congr (by simp) hcaps
        · refine scopesGood_congr ?_ hsc
          rw [e13]
          simp
  | captureCons cons q =>
    unfold matchBody
    dsimp only [Context.justReturned]
    simp only [GoodPat] at hg
    split_ifs with hbret
    · dsimp only
      refine bp_of_call ?_ ?_ ?_ ?_ ?_ hg
      · rw [begin_n, begin_at]
        exact hn
      · rw [begin_at, begin_text]
        exact hat
      · rw [begin_at, begin_n]
      · refine begin_capsGood ?_ _
        exact hcaps
      · exact scopesGood_congr (by simp) hsc
    · split
      · exact bp_of_err hn hat rfl hcaps hsc
      · rename_i ctx2 heq
        dsimp only
        obtain ⟨e1, e2, e3, e4, e5, e6, e7, e8, e9, e10, e11, e12, e13⟩ :=
          endCap_ok_fields _ heq
        refine bp_of_fwd ?_ ?_ ?_ ?_ ?_
          (hb (isret_true_of_not_false hbret)) ?_ hn
        · rw [e7, e6]
          exact hn
        · rw [e6, e4]
          exact hat
        · rw [e6, e7]
        · refine endCap_capsGood ?_ heq
          exact hcaps
        · exact scopesGood_congr e13 hsc
        · exact e4
  | captureTerm cons q =>
    unfold matchBody
    dsimp only [Context.justReturned]
    simp only [GoodPat] at hg
    split_ifs with hbret hok
    · exact bp_of_call hn hat rfl hcaps hsc hg
    · exact bp_of_pred hn hat rfl hcaps hsc
    · have hbn := hb (isret_true_of_not_false hbret)
      split
      · apply bp_of_err <;>
          first
            | exact capsGood_congr (by simp) hcaps
            | exact scopesGood_congr (by simp) hsc
            | ((try dsimp only [Context.consume]); omega)
      · split
        · apply bp_of_err <;>
            first
              | exact capsGood_congr (by simp) hcaps
              | exact scopesGood_congr (by simp) hsc
              | ((try dsimp only [Context.consume]); omega)
        · rename_i ctx2 heq
          obtain ⟨e1, e2, e3, e4, e5, e6, e7, e8, e9, e10, e11, e12, e13⟩ :=
            push_ok_fields _ heq
          refine bp_of_commit ?_ ?_ ?_ ?_ ?_
          · rw [e7, e6]
            dsimp only [Context.consume]
            omega
          · rw [e6, e4]
            dsimp only [Context.consume]
            omega
          · rw [e6, e7]
            dsimp only [Context.consume]
            omega
          · refine push_capsGood ?_ heq
            exact capsGood_congr (by simp) hcaps
          · refine scopesGood_congr ?_ hsc
            rw [e13]
            simp

/-- One engine step preserves the state invariant. -/
theorem step_inv {c c2 : Context} {p : Pattern} (hinv : Inv c)
    (hp : c.pat = some p) (h : step p c = .ok c2) : Inv c2 := by
  obtain ⟨hn, hat, hb, hlink, hcaps, hsc, hfg, hog⟩ := hinv
  have hgood : GoodPat p := by
    have h2 := hog
    unfold OptGood at h2
    rw [hp] at h2
    exact h2
  have hb2 : c.isret = true → c.at_ + c.ret.n ≤ c.text.length := by
    intro hr
    rcases hb hr with hnone | hle
    · rw [hp] at hnone
      cases hnone
    · exact hle
  have hbp := body_props hgood hn hat hb2 hcaps hsc
  obtain ⟨hpcs, hplev, hpcfg, hptxt, hppat⟩ := matchBody_preserves p c
  unfold step applyYield at h
  rcases hmb : matchBody p c with ⟨cb, y⟩
  rw [hmb] at h hbp hpcs hpcfg hptxt hppat
  dsimp only at h hbp hpcs hpcfg hptxt hppat
  obtain ⟨bn, bat, bdiff, bcaps, bsc, bcall, bexec, bret⟩ := hbp
  have blink : linked cb.at_ cb.n cb.callstack := by
    rw [hpcs]
    exact linked_congr bdiff hlink
  have bfg : FramesGood cb := by
    unfold FramesGood
    rw [hpcs]
    exact hfg
  rcases y with q | q | rv | e
  · dsimp only at h
    unfold Context.call at h
    split_ifs at h
    cases h
    refine ⟨Nat.zero_le _, bat, ?_, ⟨?_, bn, blink⟩, bcaps, bsc, ?_, ?_⟩
    · intro hr
      cases hr
    · dsimp only
      omega
    · intro f hf
      rcases List.mem_cons.mp hf with rfl | hm
      · show OptGood cb.pat
        rw [hppat]
        exact hog
      · exact bfg f hm
    · exact bcall q rfl
  · dsimp only at h
    unfold Context.execute at h
    split_ifs at h with hnz hov
    cases h
    refine ⟨bn, bat, ?_, blink, bcaps, bsc, bfg, ?_⟩
    · intro hr
      cases hr
    · exact bexec q rfl
  · dsimp only at h
    unfold Context.returns at h
    rcases hbs : cb.callstack with _ | ⟨f, rest⟩ <;> rw [hbs] at h
    · cases h
      refine ⟨bn, bat, ?_, ?_, bcaps, bsc, ?_, ?_⟩
      · intro _
        exact Or.inl rfl
      · trivial
      · intro f hf
        cases hf
      · trivial
    · dsimp only at h
      by_cases hlev0 : cb.levels = 0
      · rw [if_pos hlev0] at h
        cases h
      · rw [if_neg hlev0] at h
        cases h
        have blink2 : linked cb.at_ cb.n (f :: rest) := by
          rw [← hbs]
          exact blink
        unfold linked at blink2
        obtain ⟨hf1, hf2, hf3⟩ := blink2
        have hretle := bret rv rfl
        refine ⟨hf2, ?_, ?_, hf3, bcaps, bsc, ?_, ?_⟩
        · dsimp only
          omega
        · intro _
          right
          dsimp only
          omega
        · intro f2 hf2m
          refine bfg f2 ?_
          rw [hbs]
          exact List.mem_cons_of_mem _ hf2m
        · refine bfg f ?_
          rw [hbs]
          exact List.mem_cons_self _ _
  · cases h

/-- The state after `k` pattern steps of the trampoline, when the run
has neither halted nor aborted earlier. -/
def iterCtx : Nat → Context → Option Context
  | 0, c => some c
  | k + 1, c =>
    match c.pat with
    | none => none
    | some p =>
      match step p c with
      | .ok c2 => iterCtx k c2
      | .error _ => none

theorem inv_reset (pat : Pattern) (text : List Byte) (cfg : Config)
    (hg : GoodPat pat) : Inv (Context.reset pat text cfg) := by
  refine ⟨Nat.zero_le _, Nat.zero_le _, ?_, trivial, ⟨?_, rfl⟩, ?_, ?_, hg⟩
  · intro hr
    cases hr
  · show ¬([{ cons := none, args := [] }] : List CaptureThunk) = []
    simp
  · intro ns hns
    cases hns
  · intro f hf
    cases hf

theorem iterCtx_inv : ∀ (k : Nat) (c c2 : Context), Inv c →
    iterCtx k c = some c2 → Inv c2 ∧ c2.text = c.text := by
  intro k
  induction k with
  | zero =>
    intro c c2 hinv h
    cases h
    exact ⟨hinv, rfl⟩
  | succ k ih =>
    intro c c2 hinv h
    unfold iterCtx at h
    rcases hp : c.pat with _ | p <;> rw [hp] at h <;> dsimp only at h
    · cases h
    · rcases hs : step p c with e | c1 <;> rw [hs] at h <;> dsimp only at h
      · cases h
      · have h1 := step_inv hinv hp hs
        have h2 := ih c1 c2 h1 h
        have htxt := (step_shape hs).2.1
        exact ⟨h2.1, h2.2.trans htxt⟩

/-- Weak form of `skipLoop_facts`, free of the text-length bound: the
loop only ever consumes, so `n ≤ at` and the capture stack survive. -/
theorem skipLoop_factsW : ∀ (k : Nat) (x : Context), x.n ≤ x.at_ →
    ((skipLoop k x).1.n ≤ (skipLoop k x).1.at_ ∧
      (skipLoop k x).1.capstack = x.capstack) := by
  intro k
  induction k with
  | zero =>
    intro x hn
    exact ⟨hn, rfl⟩
  | succ k ih =>
    intro x hn
    unfold skipLoop
    dsimp only
    split_ifs with hsz
    · exact ⟨(by simp [Context.consume]; omega), rfl⟩
    · have h2 := ih (x.consume x.readRune.2) (by simp [Context.consume]; omega)
      exact ⟨h2.1, h2.2⟩

/-- Weak body lemma: with no assumption on the pattern, every body keeps
`n ≤ at` (it only ever consumes, never un-consumes past the call point)
and keeps the capture-stack shape. -/
theorem body_propsW (p : Pattern) {c : Context}
    (hn : c.n ≤ c.at_) (hcaps : CapsGood c) :
    (matchBody p c).1.n ≤ (matchBody p c).1.at_ ∧
      CapsGood (matchBody p c).1 := by
  cases p with
  | boolean ok => exact ⟨hn, hcaps⟩
  | abort msg => exact ⟨hn, hcaps⟩
  | lineAnchor ls =>
    unfold matchBody
    dsimp only
    split_ifs <;> exact ⟨hn, hcaps⟩
  | eofPred => exact ⟨hn, hcaps⟩
  | predicate nt q =>
    unfold matchBody
    dsimp only [Context.justReturned]
    split_ifs with hbret hnt <;> (try dsimp only) <;> exact ⟨hn, hcaps⟩
  | andPred pats =>
    unfold matchBody
    dsimp only [Context.justReturned]
    split_ifs with h1 hbret hok h2 <;> exact ⟨hn, hcaps⟩
  | orPred pats =>
    unfold matchBody
    dsimp only [Context.justReturned]
    split_ifs with h1 hbret hok h2 <;> exact ⟨hn, hcaps⟩
  | ifPat cond yes no =>
    unfold matchBody
    dsimp only [Context.justReturned]
    split_ifs with hbret hok <;> exact ⟨hn, hcaps⟩
  | switchPat cs otherwise =>
    unfold matchBody
    dsimp only [Context.justReturned]
    split_ifs with h1 hbret hok h2 <;> exact ⟨hn, hcaps⟩
  | text t =>
    unfold matchBody
    dsimp only
    split_ifs with heq
    · exact ⟨(by dsimp only [Context.consume]; omega),
        capsGood_congr (by simp) hcaps⟩
    · exact ⟨hn, hcaps⟩
  | backward t => exact ⟨hn, hcaps⟩
  | textSet sorted tree =>
    unfold matchBody
    dsimp only
    split
    · exact ⟨(by dsimp only [Context.consume]; omega),
        capsGood_congr (by simp) hcaps⟩
    · exact ⟨hn, hcaps⟩
  | textRefered grpname =>
    unfold matchBody
    dsimp only
    split_ifs with heq
    · exact ⟨(by dsimp only [Context.consume]; omega),
        capsGood_congr (by simp) hcaps⟩
    · exact ⟨hn, hcaps⟩
  | backwardRefered grpname => exact ⟨hn, hcaps⟩
  | sequence pats =>
    unfold matchBody
    dsimp only [Context.justReturned]
    split_ifs with h1 hbret hok h2 <;>
      first
        | exact ⟨hn, hcaps⟩
        | exact ⟨(by (try dsimp only [Context.consume]); omega),
            capsGood_congr (by simp) hcaps⟩
  | alternative pats =>
    unfold matchBody
    dsimp only [Context.justReturned]
    split_ifs with h1 hbret hlast hok h2 hlast2 <;>
      first
        | exact ⟨hn, hcaps⟩
        | exact ⟨(by (try dsimp only [Context.consume]); omega),
            capsGood_congr (by simp) hcaps⟩
  | skip k =>
    obtain ⟨f1, f2⟩ := skipLoop_factsW k c hn
    exact ⟨f1, capsGood_congr f2 hcaps⟩
  | anyRuneUntil without q =>
    unfold matchBody
    dsimp only [Context.justReturned]
    split_ifs with ha hbret hok hw hz hc2 <;>
      first
        | exact ⟨hn, hcaps⟩
        | exact ⟨(by (try dsimp only [Context.consume]); omega),
            capsGood_congr (by simp) hcaps⟩
  | qualifierAtLeast nmin q =>
    unfold matchBody
    dsimp only [Context.justReturned]
    split_ifs with ha hbret hok hmin hr2 <;>
      first
        | exact ⟨hn, hcaps⟩
        | exact ⟨(by (try dsimp only [Context.consume]); omega),
            capsGood_congr (by simp) hcaps⟩
  | qualifierOptional q =>
    unfold matchBody
    dsimp only [Context.justReturned]
    split_ifs with hbret hok <;>
      first
        | exact ⟨hn, hcaps⟩
        | exact ⟨(by (try dsimp only [Context.consume]); omega),
            capsGood_congr (by simp) hcaps⟩
  | qualifierRange m nn q =>
    unfold matchBody
    dsimp only [Context.justReturned]
    split_ifs with hlt ha hbret hok hmin hlt2 hr2 <;>
      first
        | exact ⟨hn, hcaps⟩
        | exact ⟨(by (try dsimp only [Context.consume]); omega),
            capsGood_congr (by simp) hcaps⟩
  | anyRune =>
    unfold matchBody
    dsimp only
    split_ifs with hz
    · exact ⟨hn, hcaps⟩
    · exact ⟨(by dsimp only [Context.consume]; omega),
        capsGood_congr (by simp) hcaps⟩
  | runeSet nt charset =>
    unfold matchBody
    dsimp only
    split_ifs with hz <;>
      first
        | exact ⟨hn, hcaps⟩
        | exact ⟨(by dsimp only [Context.consume]; omega),
            capsGood_congr (by simp) hcaps⟩
  | runeRange nt ranges =>
    unfold matchBody
    dsimp only
    split_ifs with hz <;>
      first
        | exact ⟨hn, hcaps⟩
        | exact ⟨(by dsimp only [Context.consume]; omega),
            capsGood_congr (by simp) hcaps⟩
  | grouping grpname q =>
    unfold matchBody
    dsimp only [Context.justReturned]
    split_ifs with hbret hok <;>
      first
        | exact ⟨hn, hcaps⟩
        | exact ⟨(by
            simp only [group_at, group_n]
            (try dsimp only [Context.consume])
            omega),
            capsGood_congr (by simp) hcaps⟩
  | trigger hook q =>
    unfold matchBody
    dsimp only [Context.justReturned]
    split_ifs with hbret hok <;>
      first
        | exact ⟨hn, hcaps⟩
        | ((try split) <;>
            first
              | exact ⟨hn, hcaps⟩
              | exact ⟨(by (try dsimp only [Context.consume]); omega),
                  capsGood_congr (by simp) hcaps⟩)
  | injector fn q =>
    unfold matchBody
    dsimp only [Context.justReturned]
    split_ifs with hbret hok hacc <;>
      first
        | exact ⟨hn, hcaps⟩
        | exact ⟨(by (try dsimp only [Context.consume]); omega),
            capsGood_congr (by simp) hcaps⟩
  | letPat vars q =>
    unfold matchBody
    dsimp only [Context.justReturned]
    split_ifs with hbret <;>
      first
        | exact ⟨hn, capsGood_congr (by simp) hcaps⟩
        | exact ⟨hn, hcaps⟩
  | captureVariable varname capture =>
    unfold matchBody
    dsimp only [Context.justReturned]
    split_ifs with hbret hcap
    · split
      · exact ⟨hn, hcaps⟩
      · exact ⟨hn, hcaps⟩
    · split
      · exact ⟨hn, hcaps⟩
      · rename_i callee heq
        dsimp only
        refine ⟨?_, ?_⟩
        · rw [begin_n, begin_at]
          exact hn
        · refine begin_capsGood ?_ _
          exact hcaps
    · split
      · exact ⟨hn, hcaps⟩
      · rename_i ctx2 heq
        dsimp only
        obtain ⟨e1, e2, e3, e4, e5, e6, e7, e8, e9, e10, e11, e12, e13⟩ :=
          endCap_ok_fields _ heq
        refine ⟨?_, ?_⟩
        · rw [e7, e6]
          exact hn
        · refine endCap_capsGood ?_ heq
          exact hcaps
  | captureToken toktype q =>
    unfold matchBody
    dsimp only [Context.justReturned]
    split_ifs with hbret hok
    · exact ⟨hn, hcaps⟩
    · exact ⟨hn, hcaps⟩
    · split
      · first
          | exact ⟨hn, hcaps⟩
          | exact ⟨(by (try dsimp only [Context.consume]); omega),
              capsGood_congr (by simp) hcaps⟩
      · rename_i ctx2 heq
        obtain ⟨e1, e2, e3, e4, e5, e6, e7, e8, e9, e10, e11, e12, e13⟩ :=
          push_ok_fields _ heq
        refine ⟨?_, ?_⟩
        · rw [e7, e6]
          dsimp only [Context.consume]
          omega
        · refine push_capsGood ?_ heq
          exact capsGood_congr (by simp) hcaps
  | captureCons cons q =>
    unfold matchBody
    dsimp only [Context.justReturned]
    split_ifs with hbret
    · dsimp only
      refine ⟨?_, ?_⟩
      · rw [begin_n, begin_at]
        exact hn
      · refine begin_capsGood ?_ _
        exact hcaps
    · split
      · exact ⟨hn, hcaps⟩
      · rename_i ctx2 heq
        dsimp only
        obtain ⟨e1, e2, e3, e4, e5, e6, e7, e8, e9, e10, e11, e12, e13⟩ :=
          endCap_ok_fields _ heq
        refine ⟨?_, ?_⟩
        · rw [e7, e6]
          exact hn
        · refine endCap_capsGood ?_ heq
          exact hcaps
  | captureTerm cons q =>
    unfold matchBody
    dsimp only [Context.justReturned]
    split_ifs with hbret hok
    · exact ⟨hn, hcaps⟩
    · exact ⟨hn, hcaps⟩
    · split
      · first
          | exact ⟨hn, hcaps⟩
          | exact ⟨(by (try dsimp only [Context.consume]); omega),
              capsGood_congr (by simp) hcaps⟩
      · split
        · first
            | exact ⟨hn, hcaps⟩
            | exact ⟨(by (try dsimp only [Context.consume]); omega),
                capsGood_congr (by simp) hcaps⟩
        · rename_i ctx2 heq
          obtain ⟨e1, e2, e3, e4, e5, e6, e7, e8, e9, e10, e11, e12, e13⟩ :=
            push_ok_fields _ heq
          refine ⟨?_, ?_⟩
          · rw [e7, e6]
            dsimp only [Context.consume]
            omega
          · refine push_capsGood ?_ heq
            exact capsGood_congr (by simp) hcaps

/-- The unconditional part of the engine-state invariant: cursor
coherence `n ≤ at`, the same bound saved in every callstack frame, and
the capture-stack shape.  No assumption on the pattern is needed. -/
def InvW (c : Context) : Prop :=
  c.n ≤ c.at_ ∧ (∀ f ∈ c.callstack, f.n ≤ f.at_) ∧ CapsGood c

theorem invW_reset (pat : Pattern) (text : List Byte) (cfg : Config) :
    InvW (Context.reset pat text cfg) := by
  refine ⟨Nat.zero_le _, ?_, ?_, rfl⟩
  · intro f hf
    cases hf
  · show ¬([{ cons := none, args := [] }] : List CaptureThunk) = []
    simp

/-- One engine step preserves the unconditional invariant. -/
theorem step_invW {c c2 : Context} {p : Pattern}
    (hinv : InvW c) (h : step p c = .ok c2) : InvW c2 := by
  obtain ⟨hn, hframes, hcaps⟩ := hinv
  have hbp := body_propsW p hn hcaps
  obtain ⟨hpcs, hplev, hpcfg, hptxt, hppat⟩ := matchBody_preserves p c
  unfold step applyYield at h
  rcases hmb : matchBody p c with ⟨cb, y⟩
  rw [hmb] at h hbp hpcs
  dsimp only at h hbp hpcs
  obtain ⟨bn, bcaps⟩ := hbp
  have bframes : ∀ f ∈ cb.callstack, f.n ≤ f.at_ := by
    rw [hpcs]
    exact hframes
  rcases y with q | q | rv | e
  · dsimp only at h
    unfold Context.call at h
    split_ifs at h
    cases h
    refine ⟨Nat.zero_le _, ?_, bcaps⟩
    intro f hf
    rcases List.mem_cons.mp hf with rfl | hm
    · exact bn
    · exact bframes f hm
  · dsimp only at h
    unfold Context.execute at h
    split_ifs at h with hnz hov
    cases h
    exact ⟨bn, bframes, bcaps⟩
  · dsimp only at h
    unfold Context.returns at h
    rcases hbs : cb.callstack with _ | ⟨f, rest⟩ <;> rw [hbs] at h
    · cases h
      refine ⟨bn, ?_, bcaps⟩
      intro f hf
      cases hf
    · dsimp only at h
      by_cases hlev0 : cb.levels = 0
      · rw [if_pos hlev0] at h
        cases h
      · rw [if_neg hlev0] at h
        cases h
        refine ⟨?_, ?_, bcaps⟩
        · exact bframes f (by rw [hbs]; exact List.mem_cons_self _ _)
        · intro f2 hf2
          exact bframes f2 (by rw [hbs]; exact List.mem_cons_of_mem _ hf2)
  · cases h

theorem iterCtx_invW : ∀ (k : Nat) (c c2 : Context), InvW c →
    iterCtx k c = some c2 → InvW c2 := by
  intro k
  induction k with
  | zero =>
    intro c c2 hinv h
    cases h
    exact hinv
  | succ k ih =>
    intro c c2 hinv h
    unfold iterCtx at h
    rcases hp : c.pat with _ | p <;> rw [hp] at h <;> dsimp only at h
    · cases h
    · rcases hs : step p c with e | c1 <;> rw [hs] at h <;> dsimp only at h
      · cases h
      · exact ih c1 c2 (step_invW hinv hs) h

/-- The trampoline never changes the subject text. -/
theorem iterCtx_text : ∀ (k : Nat) (c c2 : Context),
    iterCtx k c = some c2 → c2.text = c.text := by
  intro k
  induction k with
  | zero =>
    intro c c2 h
    cases h
    rfl
  | succ k ih =>
    intro c c2 h
    unfold iterCtx at h
    rcases hp : c.pat with _ | p <;> rw [hp] at h <;> dsimp only at h
    · cases h
    · rcases hs : step p c with e | c1 <;> rw [hs] at h <;> dsimp only at h
      · cases h
      · exact (ih c1 c2 h).trans (step_shape hs).2.1

/-- C5 (amended).  Every state reachable from a fresh context by
pattern steps satisfies `n ≤ at` (hence `0 ≤ at - n ≤ at`), keeps the
subject text, and keeps the capture stack non-empty with a nil
constructor in its bottom frame — unconditionally; provided additionally
that every injector function of the pattern accepts at most as many
bytes as it is given, the cursor also stays within the text:
`at ≤ len(text)`. -/
theorem c5_state_invariants (pat : Pattern) (text : List Byte)
    (cfg : Config) (k : Nat) (c2 : Context)
    (h : iterCtx k (Context.reset pat text cfg) = some c2) :
    (c2.n ≤ c2.at_ ∧ c2.text = text ∧ c2.capstack ≠ [] ∧
      (c2.capstack.headD default).cons = none) ∧
    (GoodPat pat → c2.at_ ≤ c2.text.length) := by
  obtain ⟨w1, _, w3, w4⟩ := iterCtx_invW k _ c2 (invW_reset pat text cfg) h
  refine ⟨⟨w1, iterCtx_text k _ c2 h, w3, w4⟩, ?_⟩
  intro hg
  obtain ⟨hinv, _⟩ := iterCtx_inv k _ c2 (inv_reset pat text cfg hg) h
  exact hinv.2.1

def c5wCtx : Context :=
  (iterCtx 1 (Context.reset (T [97]) [97] defaultConfig)).getD ctxW

theorem c5_state_invariants_witness :
    c5wCtx.n ≤ c5wCtx.at_ ∧ c5wCtx.text = [97] ∧ c5wCtx.capstack ≠ [] ∧
      (c5wCtx.capstack.headD default).cons = none ∧
      c5wCtx.at_ ≤ c5wCtx.text.length :=
  have hmain := c5_state_invariants (T [97]) [97] defaultConfig 1 c5wCtx
    (by rfl)
  ⟨hmain.1.1, hmain.1.2.1, hmain.1.2.2.1, hmain.1.2.2.2,
    hmain.2 (by simp [T, GoodPat])⟩

/-- An injector whose function claims one byte more than its argument
holds: the cursor escapes the text. -/
def c5cePat : Pattern := .injector (fun _ => (1, true)) (.boolean true)

def c5ceCtx : Context :=
  (iterCtx 3 (Context.reset c5cePat [] defaultConfig)).getD ctxW

/-- C5 counterexample.  After three steps on empty input the state
reached by the engine has `at = 1 > 0 = len(text)`: the invariant
`at ≤ len(text)` of the claim fails for an ill-behaved injector, whose
accepted byte count the code does not clamp. -/
theorem c5_cursor_overrun :
    iterCtx 3 (Context.reset c5cePat [] defaultConfig) = some c5ceCtx ∧
      c5ceCtx.text = [] ∧ c5ceCtx.at_ = 1 ∧
      ¬c5ceCtx.at_ ≤ c5ceCtx.text.length :=
  ⟨rfl, rfl, rfl, by decide⟩

end Peg
